import Mathlib

/-!
# Verification of the Graph-Algorithm-Visualizer traversal core

A shallow embedding of `src/scripts.js`: the graph store (nodes, edges,
adjacency projection), the three traversal generators (`bfs`, `dfs`,
`dijkstra`), the animation-step applier (`executeStep`) and the run
entry point (`startTraversal`).  JavaScript `Map`s are embedded as
association lists with JS `Map.set`/`Map.get` semantics, `Infinity` as
`⊤ : WithTop Nat`, absent record fields (`undefined`) as `Option`, and
the generators' lazily produced event streams as eagerly materialized
lists (driven by a fuel bound large enough that the frontier provably
empties).
-/

namespace GraphVisualizer

abbrev NodeId := Nat

/-- JS `Infinity`-capable distance values: `⊤` is `Infinity`. -/
abbrev NatInf := WithTop Nat

/-- Node visual state (`node.state` in scripts.js). -/
inductive NodeState where
  | unvisited
  | inQueue
  | current
  | visited
deriving DecidableEq, Repr

/-- Edge visual state (`edge.state` in scripts.js). -/
inductive EdgeState where
  | default
  | active
  | visited
deriving DecidableEq, Repr

/-- A node record (`{id, x, y, state, distance, label}` in `addNode`). -/
structure Node where
  id : NodeId
  x : Int
  y : Int
  state : NodeState
  distance : NatInf
  label : String
deriving DecidableEq, Repr

/-- An edge record (`{from, to, weight, state}` in `createEdge`).
`from` is a Lean keyword, hence `fromId`/`toId`. -/
structure Edge where
  fromId : NodeId
  toId : NodeId
  weight : Nat
  state : EdgeState
deriving DecidableEq, Repr

/-- One adjacency entry (`{node, weight}` pushed in `createEdge`). -/
structure AdjEntry where
  node : NodeId
  weight : Nat
deriving DecidableEq, Repr

/-- The adjacency projection: JS `Map` from node id to its entry array. -/
abbrev AdjList := List (NodeId × List AdjEntry)

/-- JS `Map.get`: the value of the (unique) binding for `k`, if present. -/
def mapGet {α : Type} : List (NodeId × α) → NodeId → Option α
  | [], _ => none
  | p :: rest, k => if p.1 = k then some p.2 else mapGet rest k

/-- JS `Map.set`: overwrite the binding for `k` in place, else append. -/
def mapSet {α : Type} : List (NodeId × α) → NodeId → α → List (NodeId × α)
  | [], k, v => [(k, v)]
  | p :: rest, k, v => if p.1 = k then (k, v) :: rest else p :: mapSet rest k v

/-- JS `Map.delete`. -/
def mapDelete {α : Type} : List (NodeId × α) → NodeId → List (NodeId × α)
  | [], _ => []
  | p :: rest, k => if p.1 = k then rest else p :: mapDelete rest k

/-- `adjacencyList.get(v) || []` as used by all three generators. -/
def adjOf (adj : AdjList) (v : NodeId) : List AdjEntry :=
  (mapGet adj v).getD []

/-- A traversal event, as yielded by the generators.  `distance` and
`edge` are `Option`s because the JS records carry them only sometimes
(`step.distance !== undefined` is tested in `executeStep`). -/
inductive Event where
  | visit (node : NodeId) (distance : Option Nat) (edge : Option (NodeId × NodeId))
  | enqueue (node : NodeId) (distance : Option Nat) (edge : Option (NodeId × NodeId))
  | setDistance (node : NodeId) (distance : Nat)
deriving DecidableEq, Repr

/-! ## The three generators

Each is a fuel-indexed loop returning the emitted events together with
the final `(visited, frontier)` state; the top-level functions supply a
fuel that provably exhausts the frontier (see `bfsLoop_queue_nil` etc.).
-/

/-- Size of the adjacency lists of not-yet-visited keys; used (together
with the frontier length) as the fuel bound for all three loops. -/
def adjPotential : AdjList → List NodeId → Nat
  | [], _ => 0
  | p :: rest, visited =>
    (if p.1 ∈ visited then 0 else p.2.length) + adjPotential rest visited

/-- The adjacency entries offered when `current` is settled with
visited set `current :: visited`: the neighbor filter of one `bfs`
iteration (`visited.add(current)` happens before the neighbor loop). -/
def bfsPush (adj : AdjList) (visited : List NodeId) (current : NodeId) : List AdjEntry :=
  (adjOf adj current).filter (fun a => decide (a.node ∉ current :: visited))

/-- Same for `dfs`, whose neighbor loop runs over the reversed
adjacency list. -/
def dfsPush (adj : AdjList) (visited : List NodeId) (current : NodeId) : List AdjEntry :=
  ((adjOf adj current).reverse).filter (fun a => decide (a.node ∉ current :: visited))

/-- The `bfs` generator body.  Per iteration: shift the queue head; if
already visited, discard; otherwise mark visited, emit `visit`, and for
each not-yet-visited adjacency entry push it and emit `enqueue`.
Returns (events, final visited, final queue). -/
def bfsLoop (adj : AdjList) :
    Nat → List NodeId → List NodeId → List Event × List NodeId × List NodeId
  | 0, visited, queue => ([], visited, queue)
  | Nat.succ fuel, visited, queue =>
    match queue with
    | [] => ([], visited, [])
    | current :: rest =>
      if current ∈ visited then bfsLoop adj fuel visited rest
      else
        let fresh := bfsPush adj visited current
        let r := bfsLoop adj fuel (current :: visited) (rest ++ fresh.map (fun a => a.node))
        (Event.visit current none none ::
          (fresh.map (fun a => Event.enqueue a.node none (some (current, a.node))) ++ r.1),
          r.2)

/-- `function* bfs(start)`: run from `{visited: ∅, queue: [start]}`. -/
def bfsEvents (adj : AdjList) (start : NodeId) : List Event :=
  (bfsLoop adj (1 + adjPotential adj []) [] [start]).1

/-- The `dfs` generator body.  The stack is modeled with its top at the
list head (JS pushes/pops at the array end).  Neighbors are offered in
reverse adjacency order, each unvisited one pushed onto the stack, so
pushing the filtered reversed list corresponds to prepending its
reverse.  Returns (events, final visited, final stack). -/
def dfsLoop (adj : AdjList) :
    Nat → List NodeId → List NodeId → List Event × List NodeId × List NodeId
  | 0, visited, stack => ([], visited, stack)
  | Nat.succ fuel, visited, stack =>
    match stack with
    | [] => ([], visited, [])
    | current :: rest =>
      if current ∈ visited then dfsLoop adj fuel visited rest
      else
        let fresh := dfsPush adj visited current
        let r := dfsLoop adj fuel (current :: visited) ((fresh.map (fun a => a.node)).reverse ++ rest)
        (Event.visit current none none ::
          (fresh.map (fun a => Event.enqueue a.node none (some (current, a.node))) ++ r.1),
          r.2)

/-- `function* dfs(start)`. -/
def dfsEvents (adj : AdjList) (start : NodeId) : List Event :=
  (dfsLoop adj (1 + adjPotential adj []) [] [start]).1

/-- Comparison used by `pq.sort((a, b) => a.dist - b.dist)`. -/
def pqLE (a b : NodeId × Nat) : Prop := a.2 ≤ b.2

instance : DecidableRel pqLE := fun a b => Nat.decLe a.2 b.2

instance : IsTotal (NodeId × Nat) pqLE := ⟨fun a b => Nat.le_total a.2 b.2⟩

instance : IsTrans (NodeId × Nat) pqLE := ⟨fun _ _ _ h h' => Nat.le_trans h h'⟩

/-- JS `Array.prototype.sort` with comparator `a.dist - b.dist`: a
stable sort by tentative distance (stable sorts produce a unique
result, here realized by insertion sort). -/
def sortPq (pq : List (NodeId × Nat)) : List (NodeId × Nat) :=
  List.insertionSort pqLE pq

/-- The neighbor-relaxation loop of `dijkstra`: for each adjacency
entry of the settled node (skipping visited ones), if the new distance
strictly improves the recorded tentative distance (`undefined` lookups
never compare true, as in JS), record it, append the candidate to the
priority queue, and emit `enqueue`.  Returns (distances, pq, events). -/
def relaxAll (visited : List NodeId) (current : NodeId) (dist : Nat) :
    List AdjEntry → List (NodeId × NatInf) → List (NodeId × Nat) →
    List (NodeId × NatInf) × List (NodeId × Nat) × List Event
  | [], dists, pq => (dists, pq, [])
  | a :: restN, dists, pq =>
    if a.node ∈ visited then relaxAll visited current dist restN dists pq
    else
      match mapGet dists a.node with
      | none => relaxAll visited current dist restN dists pq
      | some dv =>
        if ((dist + a.weight : Nat) : NatInf) < dv then
          let r := relaxAll visited current dist restN
            (mapSet dists a.node ((dist + a.weight : Nat) : NatInf))
            (pq ++ [(a.node, dist + a.weight)])
          (r.1, r.2.1,
            Event.enqueue a.node (some (dist + a.weight)) (some (current, a.node)) :: r.2.2)
        else relaxAll visited current dist restN dists pq

/-- The `dijkstra` generator body.  Per iteration: sort the priority
queue by tentative distance, shift its head; if already visited,
discard; otherwise mark visited, emit `visit` carrying the settled
distance, and relax all neighbors.  Returns
(events, final distances, final visited, final pq). -/
def dijkstraLoop (adj : AdjList) :
    Nat → List (NodeId × NatInf) → List NodeId → List (NodeId × Nat) →
    List Event × List (NodeId × NatInf) × List NodeId × List (NodeId × Nat)
  | 0, dists, visited, pq => ([], dists, visited, pq)
  | Nat.succ fuel, dists, visited, pq =>
    match sortPq pq with
    | [] => ([], dists, visited, [])
    | (current, dist) :: rest =>
      if current ∈ visited then dijkstraLoop adj fuel dists visited rest
      else
        let visited' := current :: visited
        let r := relaxAll visited' current dist (adjOf adj current) dists rest
        let r' := dijkstraLoop adj fuel r.1 visited' r.2.1
        (Event.visit current (some dist) none :: (r.2.2 ++ r'.1), r'.2)

/-- `distances` initialization of `dijkstra`: every node id mapped to
`Infinity`, then the start id set to `0`. -/
def dijkstraInitDists (nodeIds : List NodeId) (start : NodeId) : List (NodeId × NatInf) :=
  mapSet (nodeIds.foldl (fun m i => mapSet m i ⊤) []) start (0 : NatInf)

/-- `function* dijkstra(start)`: emits `setDistance(start, 0)` first,
then runs the settle loop from `pq = [{node: start, dist: 0}]`. -/
def dijkstraEvents (nodeIds : List NodeId) (adj : AdjList) (start : NodeId) : List Event :=
  Event.setDistance start 0 ::
    (dijkstraLoop adj (1 + adjPotential adj []) (dijkstraInitDists nodeIds start) [] [(start, 0)]).1

/-! ## Graph store and animation controller state -/

/-- Direction mode (`graphTypeSelect.value`). -/
inductive GraphType where
  | directed
  | undirected
deriving DecidableEq, Repr

/-- Selectable algorithm (`algorithmSelect.value`). -/
inductive Algorithm where
  | bfs
  | dfs
  | dijkstra
deriving DecidableEq, Repr

/-- The module-level mutable state of scripts.js that the core logic
touches (DOM handles and the speed slider are presentation-only). -/
structure GraphState where
  nodes : List Node
  edges : List Edge
  adjacencyList : AdjList
  startNode : Option NodeId
  selectedNode : Option NodeId
  isRunning : Bool
  isPaused : Bool
  animationQueue : List Event
  currentStep : Nat
  nodeIdCounter : Nat
deriving DecidableEq, Repr

/-- The pristine module state. -/
def initState : GraphState :=
  { nodes := [], edges := [], adjacencyList := [], startNode := none,
    selectedNode := none, isRunning := false, isPaused := false,
    animationQueue := [], currentStep := 0, nodeIdCounter := 0 }

/-- `node.label` computed in `addNode` from the current node count:
`String.fromCharCode(65 + n % 26)` plus `Math.floor(n / 26)` when
`n >= 26`. -/
def nodeLabel (n : Nat) : String :=
  String.mk [Char.ofNat (65 + n % 26)] ++ (if n ≥ 26 then toString (n / 26) else "")

/-- `addNode(x, y)`: allocate the next id, push the node, register an
empty adjacency entry. -/
def addNode (s : GraphState) (x y : Int) : GraphState :=
  let node : Node :=
    { id := s.nodeIdCounter, x := x, y := y, state := NodeState.unvisited,
      distance := ⊤, label := nodeLabel s.nodes.length }
  { s with nodes := s.nodes ++ [node],
           adjacencyList := mapSet s.adjacencyList node.id [],
           nodeIdCounter := s.nodeIdCounter + 1 }

/-- Duplicate-edge test of `createEdge` (direction-insensitive in
undirected mode). -/
def edgeExists (mode : GraphType) (edges : List Edge) (fromId toId : NodeId) : Bool :=
  edges.any (fun e =>
    (e.fromId == fromId && e.toId == toId) ||
    (mode == GraphType.undirected && e.fromId == toId && e.toId == fromId))

/-- `createEdge(from, to, weight)`.  `none` models the JS `TypeError`
raised when an endpoint has no adjacency entry (never reached for
states built by the store operations). -/
def createEdge (mode : GraphType) (s : GraphState) (fromId toId : NodeId) (weight : Nat) :
    Option GraphState :=
  if edgeExists mode s.edges fromId toId then
    some { s with selectedNode := none }
  else
    match mapGet s.adjacencyList fromId with
    | none => none
    | some lf =>
      let newEdge : Edge :=
        { fromId := fromId, toId := toId, weight := weight, state := EdgeState.default }
      let s1 := { s with
        edges := s.edges ++ [newEdge],
        adjacencyList := mapSet s.adjacencyList fromId
          (lf ++ [({ node := toId, weight := weight } : AdjEntry)]) }
      if mode = GraphType.undirected then
        match mapGet s1.adjacencyList toId with
        | none => none
        | some lt =>
          some { s1 with
            adjacencyList := mapSet s1.adjacencyList toId
              (lt ++ [({ node := fromId, weight := weight } : AdjEntry)]),
            selectedNode := none }
      else
        some { s1 with selectedNode := none }

/-- `deleteNode(node)`: drop the node, every edge touching it, its
adjacency entry, and every occurrence of it in other adjacency lists;
clear the start designation if it pointed at it. -/
def deleteNode (s : GraphState) (nid : NodeId) : GraphState :=
  { s with
    nodes := s.nodes.filter (fun n => decide (n.id ≠ nid)),
    edges := s.edges.filter (fun e => decide (e.fromId ≠ nid) && decide (e.toId ≠ nid)),
    adjacencyList := (mapDelete s.adjacencyList nid).map
      (fun p => (p.1, p.2.filter (fun a => decide (a.node ≠ nid)))),
    startNode := if s.startNode = some nid then none else s.startNode }

/-- `setStartNode(node)`. -/
def setStartNode (s : GraphState) (nid : NodeId) : GraphState :=
  { s with startNode := some nid }

/-- `resetTraversal()`: stop playback, clear the materialized sequence
and cursor, reset every node and edge visual state and distance. -/
def resetTraversal (s : GraphState) : GraphState :=
  { s with
    isRunning := false, isPaused := false, currentStep := 0, animationQueue := [],
    nodes := s.nodes.map (fun n =>
      { n with state := NodeState.unvisited, distance := ⊤ }),
    edges := s.edges.map (fun e => { e with state := EdgeState.default }) }

/-- `clearGraph()`: empty graph, cleared start/selection, id allocator
back to 0, then `resetTraversal()`. -/
def clearGraph (s : GraphState) : GraphState :=
  resetTraversal
    { s with nodes := [], edges := [], adjacencyList := [], startNode := none,
             selectedNode := none, nodeIdCounter := 0 }

/-- The ids of the current nodes, in order (what `nodes.forEach` feeds
to the `dijkstra` distance initialization). -/
def nodeIds (s : GraphState) : List NodeId :=
  s.nodes.map (fun n => n.id)

/-- `startTraversal()` up to the point where the materialized sequence
is in place and `runAnimation()` would begin ticking.  The `Bool`
result records whether the start-node precondition alert fired. -/
def startTraversal (algo : Algorithm) (s : GraphState) :
    GraphState × Bool :=
  match s.startNode with
  | none => (s, true)
  | some st =>
    if s.isRunning then (s, false)
    else
      let s1 := resetTraversal s
      let events :=
        match algo with
        | Algorithm.bfs => bfsEvents s1.adjacencyList st
        | Algorithm.dfs => dfsEvents s1.adjacencyList st
        | Algorithm.dijkstra => dijkstraEvents (nodeIds s1) s1.adjacencyList st
      ({ s1 with isRunning := true, isPaused := false, animationQueue := events }, false)

/-! ## Event application (`executeStep`) -/

/-- `nodes.find(n => n.id === id)`. -/
def findNode (nodes : List Node) (nid : NodeId) : Option Node :=
  nodes.find? (fun n => n.id == nid)

/-- Mutate (in place) the first node with the given id. -/
def updateFirstNode (nodes : List Node) (nid : NodeId) (f : Node → Node) : List Node :=
  match nodes with
  | [] => []
  | n :: rest => if n.id = nid then f n :: rest else n :: updateFirstNode rest nid f

/-- The edge-matching predicate of `executeStep` (symmetric under
undirected mode). -/
def edgeMatches (mode : GraphType) (efr eto : NodeId) (e : Edge) : Bool :=
  (e.fromId == efr && e.toId == eto) ||
  (mode == GraphType.undirected && e.fromId == eto && e.toId == efr)

/-- `edges.find(...)` with the `executeStep` predicate. -/
def findEdge (mode : GraphType) (edges : List Edge) (efr eto : NodeId) : Option Edge :=
  edges.find? (edgeMatches mode efr eto)

/-- Mutate (in place) the first edge matching the predicate. -/
def updateFirstEdge (mode : GraphType) (edges : List Edge) (efr eto : NodeId)
    (f : Edge → Edge) : List Edge :=
  match edges with
  | [] => []
  | e :: rest =>
    if edgeMatches mode efr eto e then f e :: rest
    else e :: updateFirstEdge mode rest efr eto f

/-- The unconditional pre-step demotion: any node in state `current`
becomes `visited` before the event is applied. -/
def demoteCurrent (nodes : List Node) : List Node :=
  nodes.map (fun n => if n.state = NodeState.current then { n with state := NodeState.visited } else n)

/-- The node id an event refers to. -/
def Event.nodeId : Event → NodeId
  | Event.visit n _ _ => n
  | Event.enqueue n _ _ => n
  | Event.setDistance n _ => n

/-- The node mutation a `visit` event performs on its target
(`node.state = 'current'`, distance written only when carried). -/
def visitUpdate (dist : Option Nat) (nd : Node) : Node :=
  { nd with state := NodeState.current,
            distance := match dist with
                        | some d => (d : NatInf)
                        | none => nd.distance }

/-- The node mutation an `enqueue` event performs inside its
`unvisited` guard (`node.state = 'inQueue'`, distance written only
when carried). -/
def enqueueUpdate (dist : Option Nat) (nd : Node) : Node :=
  { nd with state := NodeState.inQueue,
            distance := match dist with
                        | some d => (d : NatInf)
                        | none => nd.distance }

/-- The edge mutation of a `visit` event. -/
def edgeVisitedUpdate (e : Edge) : Edge :=
  { e with state := EdgeState.visited }

/-- The edge mutation of an `enqueue` event. -/
def edgeActiveUpdate (e : Edge) : Edge :=
  { e with state := EdgeState.active }

/-- The node mutation of a `setDistance` event. -/
def setDistanceUpdate (dist : Nat) (nd : Node) : Node :=
  { nd with distance := (dist : NatInf) }

/-- `executeStep(step)`: demote any `current` node to `visited`, then
apply the event to the (first) node with the event's id and to the
(first) matching edge; lookups that fail are skipped. -/
def executeStep (mode : GraphType) (s : GraphState) (step : Event) : GraphState :=
  let nodes0 := demoteCurrent s.nodes
  match step with
  | Event.visit n dist edge =>
    let nodes1 :=
      match findNode nodes0 n with
      | none => nodes0
      | some _ => updateFirstNode nodes0 n (visitUpdate dist)
    let edges1 :=
      match edge with
      | none => s.edges
      | some (efr, eto) =>
        match findEdge mode s.edges efr eto with
        | none => s.edges
        | some _ => updateFirstEdge mode s.edges efr eto edgeVisitedUpdate
    { s with nodes := nodes1, edges := edges1 }
  | Event.enqueue n dist edge =>
    let nodes1 :=
      match findNode nodes0 n with
      | none => nodes0
      | some nd =>
        if nd.state = NodeState.unvisited then
          updateFirstNode nodes0 n (enqueueUpdate dist)
        else nodes0
    let edges1 :=
      match edge with
      | none => s.edges
      | some (efr, eto) =>
        match findEdge mode s.edges efr eto with
        | none => s.edges
        | some _ => updateFirstEdge mode s.edges efr eto edgeActiveUpdate
    { s with nodes := nodes1, edges := edges1 }
  | Event.setDistance n dist =>
    let nodes1 :=
      match findNode nodes0 n with
      | none => nodes0
      | some _ => updateFirstNode nodes0 n (setDistanceUpdate dist)
    { s with nodes := nodes1 }

/-- Applying a whole (suffix of a) materialized sequence, as the
`runAnimation` loop does one tick at a time. -/
def applyEvents (mode : GraphType) (s : GraphState) : List Event → GraphState
  | [] => s
  | e :: rest => applyEvents mode (executeStep mode s e) rest

/-! ## Specification-side notions

Walks over the adjacency projection, hop counts and path weights.
These are the reference notions the claims compare the code against;
they are defined from the adjacency projection (which already encodes
the direction mode). -/

/-- There is a walk of exactly `k` hops from `s` to `v` over the
adjacency projection. -/
inductive ReachesIn (adj : AdjList) (s : NodeId) : NodeId → Nat → Prop
  | refl : ReachesIn adj s s 0
  | step {u : NodeId} {k : Nat} {a : AdjEntry} :
      ReachesIn adj s u k → a ∈ adjOf adj u → ReachesIn adj s a.node (k + 1)

/-- `v` is reachable from `s` over the adjacency projection. -/
def Reaches (adj : AdjList) (s v : NodeId) : Prop :=
  ∃ k, ReachesIn adj s v k

/-- There is a walk from `s` to `v` of total edge weight `w` over the
adjacency projection. -/
inductive PathWeight (adj : AdjList) (s : NodeId) : NodeId → Nat → Prop
  | refl : PathWeight adj s s 0
  | step {u : NodeId} {w : Nat} {a : AdjEntry} :
      PathWeight adj s u w → a ∈ adjOf adj u → PathWeight adj s a.node (w + a.weight)

/-- The hop distance of `v` from `s` is at most `c`. -/
def HopLE (adj : AdjList) (s v : NodeId) (c : Nat) : Prop :=
  ∃ k ≤ c, ReachesIn adj s v k

/-- The hop distance of `v` from `s` is strictly below `c`. -/
def HopLT (adj : AdjList) (s v : NodeId) (c : Nat) : Prop :=
  ∃ k < c, ReachesIn adj s v k

/-- `b` is at least as far (in hops) from `s` as `a`: every hop count
realizing `b` is matched by one for `a` that is no larger. -/
def HopDistMono (adj : AdjList) (s a b : NodeId) : Prop :=
  ∀ k, ReachesIn adj s b k → ∃ j ≤ k, ReachesIn adj s a j

/-- The level invariant of the `bfs` loop: `c` is the hop level of the
most recent visit; everything strictly closer is visited; the queue
splits into a prefix `A` holding (an occurrence of) every unvisited
node at hop distance at most `c`, all of whose entries are at distance
at most `c`, followed by a suffix of entries at distance at most
`c + 1`; and every neighbor of a visited node is visited or queued. -/
structure BfsLevelInv (adj : AdjList) (start : NodeId)
    (visited queue : List NodeId) (c : Nat) : Prop where
  below : ∀ w, HopLT adj start w c → w ∈ visited
  split : ∃ A B, queue = A ++ B ∧ (∀ q ∈ A, HopLE adj start q c) ∧
    (∀ w, w ∉ visited → HopLE adj start w c → w ∈ A) ∧
    (∀ q ∈ B, HopLE adj start q (c + 1))
  closure : ∀ u ∈ visited, ∀ a ∈ adjOf adj u, a.node ∈ visited ∨ a.node ∈ queue

/-- The invariant of the `dijkstra` settle loop, tying the recorded
tentative distances, the visited (settled) set and the priority queue
to genuine walk weights of the adjacency projection. -/
structure DijkInv (adj : AdjList) (start : NodeId)
    (dists : List (NodeId × NatInf)) (visited : List NodeId)
    (pq : List (NodeId × Nat)) : Prop where
  achieve : ∀ v (w : Nat), mapGet dists v = some ((w : Nat) : NatInf) →
    PathWeight adj start v w
  settled : ∀ v ∈ visited, ∃ w : Nat, mapGet dists v = some ((w : Nat) : NatInf) ∧
    ∀ w', PathWeight adj start v w' → w ≤ w'
  relaxed : ∀ u ∈ visited, ∀ a ∈ adjOf adj u, ∃ (du : Nat) (dv : NatInf),
    mapGet dists u = some ((du : Nat) : NatInf) ∧ mapGet dists a.node = some dv ∧
    dv ≤ ((du + a.weight : Nat) : NatInf)
  pqAchieve : ∀ p ∈ pq, PathWeight adj start p.1 p.2
  pqEntry : ∀ v, v ∉ visited → ∀ w : Nat,
    mapGet dists v = some ((w : Nat) : NatInf) → (v, w) ∈ pq
  pqDom : ∀ p ∈ pq, ∃ dv : NatInf, mapGet dists p.1 = some dv ∧
    dv ≤ ((p.2 : Nat) : NatInf)
  startZero : mapGet dists start = some ((0 : Nat) : NatInf)
  domain : ∀ p ∈ adj, ∀ a ∈ p.2, ∃ dv, mapGet dists a.node = some dv

/-- The node ids carrying the `visit` events of a sequence, in order. -/
def visitNodes (evs : List Event) : List NodeId :=
  evs.filterMap (fun e =>
    match e with
    | Event.visit n _ _ => some n
    | _ => none)

/-- Every adjacency entry's neighbor id is a current node id (the
well-formedness the store operations maintain; `dijkstra`'s distance
map covers exactly the node ids, so neighbor lookups succeed). -/
def AdjCovered (ids : List NodeId) (adj : AdjList) : Prop :=
  ∀ p ∈ adj, ∀ a ∈ p.2, a.node ∈ ids

instance (ids : List NodeId) (adj : AdjList) : Decidable (AdjCovered ids adj) := by
  unfold AdjCovered
  infer_instance

/-- No dangling references: every edge endpoint, adjacency key and
adjacency neighbor refers to an existing node (the invariant the claim
about `deleteNode` asserts is maintained). -/
def NoDangling (s : GraphState) : Prop :=
  (∀ e ∈ s.edges, e.fromId ∈ nodeIds s ∧ e.toId ∈ nodeIds s) ∧
  (∀ p ∈ s.adjacencyList, p.1 ∈ nodeIds s ∧ ∀ a ∈ p.2, a.node ∈ nodeIds s)

/-- An editing operation of the store, for the id-allocation claim. -/
inductive StoreOp where
  | add (x y : Int)
  | delete (nid : NodeId)
  | clear
deriving DecidableEq, Repr

/-- Run a sequence of store operations, collecting the id assigned by
each `addNode` call in order. -/
def runOps (s : GraphState) : List StoreOp → GraphState × List NodeId
  | [] => (s, [])
  | StoreOp.add x y :: rest =>
    let r := runOps (addNode s x y) rest
    (r.1, s.nodeIdCounter :: r.2)
  | StoreOp.delete nid :: rest => runOps (deleteNode s nid) rest
  | StoreOp.clear :: rest => runOps (clearGraph s) rest

/-- A store-op sequence that never clears. -/
def NoClear (ops : List StoreOp) : Prop :=
  ∀ op ∈ ops, op ≠ StoreOp.clear

instance : DecidablePred NoClear := fun ops => by unfold NoClear; infer_instance

/-! ## The concrete scenario of the shortest-path claim

Nodes A(id 0), B(id 1), C(id 2); directed edges A→B (weight 1),
A→C (weight 4), B→C (weight 1); start A — built through the actual
store operations. -/

/-- The scenario graph, built by `addNode`/`createEdge`/`setStartNode`
(the `createEdge` calls all succeed, as the sample theorem below
computes). -/
def sampleState : GraphState :=
  let s0 := addNode (addNode (addNode initState 0 0) 1 0) 2 0
  let s1 := (createEdge GraphType.directed s0 0 1 1).getD initState
  let s2 := (createEdge GraphType.directed s1 0 2 4).getD initState
  let s3 := (createEdge GraphType.directed s2 1 2 1).getD initState
  setStartNode s3 0

/-- The materialized event sequence of the scenario's shortest-path
run. -/
def sampleEvents : List Event :=
  (startTraversal Algorithm.dijkstra sampleState).1.animationQueue

/-- The ordering the claim asserts for the scenario: the run opens with
`setDistance(A,0)`, then the enqueues of B (distance 1) and C
(distance 4), and only then `visit(A,0)`. -/
def sampleClaimedPrefix : Prop :=
  sampleEvents.take 4 =
    [Event.setDistance 0 0,
     Event.enqueue 1 (some 1) (some (0, 1)),
     Event.enqueue 2 (some 4) (some (0, 2)),
     Event.visit 0 (some 0) none]

instance : Decidable sampleClaimedPrefix := by unfold sampleClaimedPrefix; infer_instance

/-- The edge a `visit`/`enqueue` event refers to, if any. -/
def Event.edgeRef : Event → Option (NodeId × NodeId)
  | Event.visit _ _ e => e
  | Event.enqueue _ _ e => e
  | Event.setDistance _ _ => none

/-- A node already `inQueue` with recorded distance 5 (as after an
earlier enqueue carrying distance 5). -/
def c5Node : Node :=
  { id := 0, x := 0, y := 0, state := NodeState.inQueue,
    distance := (5 : NatInf), label := "A" }

/-- A state whose single node is `c5Node`. -/
def c5State : GraphState :=
  { initState with nodes := [c5Node] }

/-- A state that is mid-run: a start node is set and playback is
`Running`. -/
def c7RunState : GraphState :=
  { initState with
      nodes := [{ id := 0, x := 0, y := 0, state := NodeState.current,
                  distance := (0 : NatInf), label := "A" }],
      startNode := some 0, isRunning := true,
      animationQueue := [Event.visit 0 none none], currentStep := 1 }

/-- A state in which node 5 is the `current` node and node 99 has been
deleted (no node carries id 99). -/
def c6State : GraphState :=
  { initState with nodes :=
      [{ id := 5, x := 0, y := 0, state := NodeState.current,
         distance := ⊤, label := "A" }] }

/-! ## Lookup and update lemmas -/

/-- Keys missing from an association list look up to `none`. -/
theorem mapGet_eq_none_of_not_mem {α : Type} {m : List (NodeId × α)} {k : NodeId}
    (h : k ∉ m.map Prod.fst) : mapGet m k = none := by
  induction m with
  | nil => rfl
  | cons p rest ih =>
    rw [mapGet]
    simp only [List.map_cons, List.mem_cons] at h
    rw [if_neg (fun hp => h (Or.inl hp.symm))]
    exact ih (fun hk => h (Or.inr hk))

/-- `mapDelete` only ever drops a binding. -/
theorem mem_of_mem_mapDelete {α : Type} {m : List (NodeId × α)} {k : NodeId}
    {p : NodeId × α} (h : p ∈ mapDelete m k) : p ∈ m := by
  induction m with
  | nil => exact absurd h (List.not_mem_nil p)
  | cons q rest ih =>
    rw [mapDelete] at h
    by_cases hq : q.1 = k
    · rw [if_pos hq] at h
      exact List.mem_cons_of_mem q h
    · rw [if_neg hq] at h
      rcases List.mem_cons.mp h with h | h
      · exact h ▸ List.mem_cons_self q rest
      · exact List.mem_cons_of_mem q (ih h)

/-- With distinct keys, no binding for the deleted key survives
`mapDelete`. -/
theorem mapDelete_key_ne {α : Type} {m : List (NodeId × α)} {k : NodeId}
    (hnd : (m.map Prod.fst).Nodup) {p : NodeId × α} (h : p ∈ mapDelete m k) :
    p.1 ≠ k := by
  induction m with
  | nil => exact absurd h (List.not_mem_nil p)
  | cons q rest ih =>
    rw [mapDelete] at h
    simp only [List.map_cons, List.nodup_cons] at hnd
    by_cases hq : q.1 = k
    · rw [if_pos hq] at h
      intro hp
      exact hnd.1 (hq ▸ hp ▸ List.mem_map_of_mem Prod.fst h)
    · rw [if_neg hq] at h
      rcases List.mem_cons.mp h with h | h
      · exact h ▸ hq
      · exact ih hnd.2 h

/-- Value-only transformations commute with lookup. -/
theorem mapGet_map_snd {α β : Type} (m : List (NodeId × α)) (g : NodeId → α → β)
    (k : NodeId) :
    mapGet (m.map (fun p => (p.1, g p.1 p.2))) k = (mapGet m k).map (g k) := by
  induction m with
  | nil => rfl
  | cons p rest ih =>
    simp only [List.map_cons, mapGet]
    by_cases hp : p.1 = k
    · subst hp
      simp
    · rw [if_neg hp, if_neg hp, ih]

/-- Unfolding `findNode` over a cons cell. -/
theorem findNode_cons (n : Node) (rest : List Node) (i : NodeId) :
    findNode (n :: rest) i = if n.id = i then some n else findNode rest i := by
  by_cases h : n.id = i
  · rw [if_pos h, findNode, List.find?_cons_of_pos _ (by simp [h])]
  · rw [if_neg h, findNode, List.find?_cons_of_neg _ (by simp [h])]
    rfl

/-- `find?`-style lookup through an id-preserving map. -/
theorem findNode_map {g : Node → Node} (hg : ∀ n, (g n).id = n.id)
    (ns : List Node) (i : NodeId) :
    findNode (ns.map g) i = (findNode ns i).map g := by
  induction ns with
  | nil => rfl
  | cons n rest ih =>
    rw [List.map_cons, findNode_cons, findNode_cons, hg n]
    by_cases h : n.id = i
    · rw [if_pos h, if_pos h]
      rfl
    · rw [if_neg h, if_neg h, ih]

/-- The pre-step demotion preserves ids, so lookups pass through it. -/
theorem findNode_demoteCurrent (ns : List Node) (i : NodeId) :
    findNode (demoteCurrent ns) i =
      (findNode ns i).map (fun n =>
        if n.state = NodeState.current then { n with state := NodeState.visited } else n) := by
  refine findNode_map (fun n => ?_) ns i
  by_cases h : n.state = NodeState.current
  · rw [if_pos h]
  · rw [if_neg h]

/-- In-place node update with an id-preserving function commutes with
lookup of the same id. -/
theorem findNode_updateFirstNode (ns : List Node) (i : NodeId) (f : Node → Node)
    (hf : ∀ n, (f n).id = n.id) :
    findNode (updateFirstNode ns i f) i = (findNode ns i).map f := by
  induction ns with
  | nil => rfl
  | cons n rest ih =>
    rw [updateFirstNode]
    by_cases h : n.id = i
    · rw [if_pos h, findNode_cons, findNode_cons, if_pos ((hf n).trans h), if_pos h]
      rfl
    · rw [if_neg h, findNode_cons, findNode_cons, if_neg h, if_neg h, ih]

/-- The edge-matching predicate only reads the endpoints. -/
theorem edgeMatches_of_endpoints (mode : GraphType) (efr eto : NodeId) {e e' : Edge}
    (h1 : e'.fromId = e.fromId) (h2 : e'.toId = e.toId) :
    edgeMatches mode efr eto e' = edgeMatches mode efr eto e := by
  rw [edgeMatches, edgeMatches, h1, h2]

/-- Unfolding `findEdge` over a cons cell. -/
theorem findEdge_cons (mode : GraphType) (e : Edge) (rest : List Edge) (efr eto : NodeId) :
    findEdge mode (e :: rest) efr eto =
      if edgeMatches mode efr eto e then some e else findEdge mode rest efr eto := by
  by_cases h : edgeMatches mode efr eto e
  · simp [findEdge, List.find?, h]
  · simp [findEdge, List.find?, h]

/-- In-place edge update with an endpoint-preserving function commutes
with lookup by the same endpoints. -/
theorem findEdge_updateFirstEdge (mode : GraphType) (edges : List Edge) (efr eto : NodeId)
    (f : Edge → Edge) (hf : ∀ e, (f e).fromId = e.fromId ∧ (f e).toId = e.toId) :
    findEdge mode (updateFirstEdge mode edges efr eto f) efr eto =
      (findEdge mode edges efr eto).map f := by
  induction edges with
  | nil => rfl
  | cons e rest ih =>
    rw [updateFirstEdge]
    by_cases h : edgeMatches mode efr eto e
    · rw [if_pos h, findEdge_cons, findEdge_cons,
        edgeMatches_of_endpoints mode efr eto (hf e).1 (hf e).2, if_pos h, if_pos h]
      rfl
    · rw [if_neg h, findEdge_cons, findEdge_cons, if_neg h, if_neg h, ih]

/-! ## Claims about the concrete shortest-path scenario (C4) -/

/-- C4, counterexample: on the concrete scenario graph (A→B weight 1,
A→C weight 4, B→C weight 1, start A), the run does NOT emit the two
enqueues before `visit(A,0)`, contrary to the claimed order
`setDistance(A,0)`, `enqueue B@1`, `enqueue C@4`, `visit(A,0)`. -/
theorem sampleClaimedPrefix_false : ¬ sampleClaimedPrefix := by decide

/-- C4 (amended): the scenario's shortest-path run emits
`setDistance(A,0)`, then `visit(A,0)`, then the enqueues of B with
distance 1 and C with distance 4; the settle order visits B before C;
and C's final distance is 2 (via A→B→C), not 4. -/
theorem sampleEvents_spec :
    sampleEvents =
      [Event.setDistance 0 0,
       Event.visit 0 (some 0) none,
       Event.enqueue 1 (some 1) (some (0, 1)),
       Event.enqueue 2 (some 4) (some (0, 2)),
       Event.visit 1 (some 1) none,
       Event.enqueue 2 (some 2) (some (1, 2)),
       Event.visit 2 (some 2) none] ∧
    visitNodes sampleEvents = [0, 1, 2] := by decide

/-! ## Claims about `executeStep` (C5, C6) -/

/-- C5, counterexample: an `enqueue` event carrying distance 3 applied
to a node that is already `inQueue` with distance 5 leaves the distance
at 5 — the distance is NOT set "regardless of the node's prior visual
state", because the update sits inside the `unvisited` guard. -/
theorem enqueue_distance_not_overwritten :
    (executeStep GraphType.directed c5State (Event.enqueue 0 (some 3) none)).nodes.map
        Node.distance = [(5 : NatInf)] ∧
      (5 : NatInf) ≠ (3 : NatInf) := by decide

/-- C5 (amended): applying an `enqueue` event, the target node becomes
`inQueue` only if it is still `unvisited`, and only in that case is the
carried distance written; an already-`inQueue` or `visited` target is
left entirely unchanged (state and distance); the associated edge's
visual state becomes `active`. -/
theorem executeStep_enqueue_spec (mode : GraphType) (s : GraphState) (n : NodeId)
    (d : Option Nat) (eo : Option (NodeId × NodeId)) (nd : Node)
    (hfind : findNode (demoteCurrent s.nodes) n = some nd) :
    (nd.state = NodeState.unvisited →
      findNode (executeStep mode s (Event.enqueue n d eo)).nodes n =
        some (enqueueUpdate d nd)) ∧
    (nd.state ≠ NodeState.unvisited →
      findNode (executeStep mode s (Event.enqueue n d eo)).nodes n = some nd) ∧
    (∀ efr eto ed, eo = some (efr, eto) →
      findEdge mode s.edges efr eto = some ed →
      findEdge mode (executeStep mode s (Event.enqueue n d eo)).edges efr eto =
        some (edgeActiveUpdate ed)) := by
  have hnodes : (executeStep mode s (Event.enqueue n d eo)).nodes =
      (if nd.state = NodeState.unvisited then
        updateFirstNode (demoteCurrent s.nodes) n (enqueueUpdate d)
      else demoteCurrent s.nodes) := by
    simp only [executeStep, hfind]
  refine ⟨?_, ?_, ?_⟩
  · intro hu
    rw [hnodes, if_pos hu,
      findNode_updateFirstNode (demoteCurrent s.nodes) n (enqueueUpdate d)
        (fun n' => rfl), hfind]
    rfl
  · intro hu
    rw [hnodes, if_neg hu, hfind]
  · intro efr eto ed heo hed
    have hedges : (executeStep mode s (Event.enqueue n d eo)).edges =
        updateFirstEdge mode s.edges efr eto edgeActiveUpdate := by
      simp only [executeStep, heo, hed]
    rw [hedges,
      findEdge_updateFirstEdge mode s.edges efr eto edgeActiveUpdate
        (fun e => ⟨rfl, rfl⟩), hed]
    rfl

/-- C6, counterexample: applying an event that references a deleted
node id (99) is not a complete no-op — the node that was `current`
(id 5) is still demoted to `visited`, so the visual states do change. -/
theorem stale_event_demotes_current :
    (executeStep GraphType.directed c6State (Event.visit 99 none none)).nodes.map
        Node.state = [NodeState.visited] ∧
      c6State.nodes.map Node.state = [NodeState.current] ∧
      NodeState.visited ≠ NodeState.current := by decide

/-- C6 (amended): applying an event whose node id is no longer present
(and whose edge reference, if any, matches no edge) does not fail and
has no effect beyond the standard pre-step demotion of any `current`
node to `visited`: the edges are untouched, the nodes only demoted, and
playback continues with the subsequent events. -/
theorem executeStep_stale_spec (mode : GraphType) (s : GraphState) (ev : Event)
    (rest : List Event)
    (hn : findNode s.nodes ev.nodeId = none)
    (he : ∀ efr eto, ev.edgeRef = some (efr, eto) →
      findEdge mode s.edges efr eto = none) :
    (executeStep mode s ev).nodes = demoteCurrent s.nodes ∧
    (executeStep mode s ev).edges = s.edges ∧
    applyEvents mode s (ev :: rest) =
      applyEvents mode (executeStep mode s ev) rest := by
  have hn' : findNode (demoteCurrent s.nodes) ev.nodeId = none := by
    rw [findNode_demoteCurrent, hn]
    rfl
  refine ⟨?_, ?_, rfl⟩
  · cases ev with
    | visit n dd eo =>
      simp only [Event.nodeId] at hn'
      simp only [executeStep, hn']
    | enqueue n dd eo =>
      simp only [Event.nodeId] at hn'
      simp only [executeStep, hn']
    | setDistance n dd =>
      simp only [Event.nodeId] at hn'
      simp only [executeStep, hn']
  · cases ev with
    | visit n dd eo =>
      cases eo with
      | none => simp only [executeStep]
      | some pr =>
        have := he pr.1 pr.2 rfl
        simp only [executeStep, this]
    | enqueue n dd eo =>
      cases eo with
      | none => simp only [executeStep]
      | some pr =>
        have := he pr.1 pr.2 rfl
        simp only [executeStep, this]
    | setDistance n dd => simp only [executeStep]

/-! ## Claims about `startTraversal` (C7) -/

/-- C7: starting a run with no start node designated alerts the user
and leaves the state untouched; starting while already running is a
no-op on the state. -/
theorem startTraversal_guards (algo : Algorithm) (s : GraphState) :
    (s.startNode = none → startTraversal algo s = (s, true)) ∧
    (s.isRunning = true → (startTraversal algo s).1 = s) := by
  constructor
  · intro h
    simp [startTraversal, h]
  · intro h
    cases hs : s.startNode with
    | none => simp [startTraversal, hs]
    | some st => simp [startTraversal, hs, h]

/-- C7, witness. -/
theorem startTraversal_guards_witness :
    startTraversal Algorithm.bfs initState = (initState, true) ∧
    (startTraversal Algorithm.dfs c7RunState).1 = c7RunState :=
  ⟨(startTraversal_guards Algorithm.bfs initState).1 rfl,
   (startTraversal_guards Algorithm.dfs c7RunState).2 rfl⟩

/-- C5, witness: the already-`inQueue` node of `c5State`. -/
theorem executeStep_enqueue_spec_witness :
    (c5Node.state = NodeState.unvisited →
      findNode (executeStep GraphType.directed c5State
        (Event.enqueue 0 (some 3) none)).nodes 0 = some (enqueueUpdate (some 3) c5Node)) ∧
    (c5Node.state ≠ NodeState.unvisited →
      findNode (executeStep GraphType.directed c5State
        (Event.enqueue 0 (some 3) none)).nodes 0 = some c5Node) ∧
    (∀ efr eto ed, (none : Option (NodeId × NodeId)) = some (efr, eto) →
      findEdge GraphType.directed c5State.edges efr eto = some ed →
      findEdge GraphType.directed (executeStep GraphType.directed c5State
        (Event.enqueue 0 (some 3) none)).edges efr eto = some (edgeActiveUpdate ed)) :=
  executeStep_enqueue_spec GraphType.directed c5State 0 (some 3) none c5Node rfl

/-- C6, witness: a `visit` of the deleted id 99 against `c6State`. -/
theorem executeStep_stale_spec_witness :
    (executeStep GraphType.directed c6State (Event.visit 99 none none)).nodes =
      demoteCurrent c6State.nodes ∧
    (executeStep GraphType.directed c6State (Event.visit 99 none none)).edges =
      c6State.edges ∧
    applyEvents GraphType.directed c6State
        (Event.visit 99 none none :: [Event.setDistance 5 7]) =
      applyEvents GraphType.directed
        (executeStep GraphType.directed c6State (Event.visit 99 none none))
        [Event.setDistance 5 7] :=
  executeStep_stale_spec GraphType.directed c6State (Event.visit 99 none none)
    [Event.setDistance 5 7] rfl (fun _ _ h => nomatch h)

/-! ## Claims about `deleteNode` (C8) -/

/-- Value-side scrubbing commutes with adjacency lookup. -/
theorem mapGet_scrub (m : AdjList) (nid k : NodeId) :
    mapGet (m.map (fun p => (p.1, p.2.filter (fun a => decide (a.node ≠ nid))))) k =
      (mapGet m k).map (fun l => l.filter (fun a => decide (a.node ≠ nid))) := by
  induction m with
  | nil => rfl
  | cons p rest ih =>
    simp only [List.map_cons, mapGet]
    by_cases hp : p.1 = k
    · rw [if_pos hp, if_pos hp]
      rfl
    · rw [if_neg hp, if_neg hp, ih]

/-- With distinct keys, the deleted key is gone from the map. -/
theorem mapGet_mapDelete_self {α : Type} (m : List (NodeId × α)) (k : NodeId)
    (hnd : (m.map Prod.fst).Nodup) : mapGet (mapDelete m k) k = none := by
  apply mapGet_eq_none_of_not_mem
  intro hk
  rcases List.mem_map.mp hk with ⟨p, hp, hpk⟩
  exact mapDelete_key_ne hnd hp hpk

/-- Node-id membership after `deleteNode`. -/
theorem nodeIds_deleteNode (s : GraphState) (nid i : NodeId) :
    i ∈ nodeIds (deleteNode s nid) ↔ i ∈ nodeIds s ∧ i ≠ nid := by
  simp only [nodeIds, deleteNode, List.mem_map, List.mem_filter, decide_eq_true_eq]
  constructor
  · rintro ⟨n, ⟨hn, hne⟩, rfl⟩
    exact ⟨⟨n, hn, rfl⟩, hne⟩
  · rintro ⟨⟨n, hn, rfl⟩, hne⟩
    exact ⟨n, ⟨hn, hne⟩, rfl⟩

/-- C8: `deleteNode(id)` removes the node, every edge touching it, its
adjacency entry, and every occurrence of it in the other adjacency
lists; it clears the start designation when it pointed at the id; and
it preserves the no-dangling-references invariant, so the adjacency
projection stays in lockstep with the edge set. -/
theorem deleteNode_spec (s : GraphState) (nid : NodeId)
    (hmem : nid ∈ nodeIds s)
    (hkeys : (s.adjacencyList.map Prod.fst).Nodup) :
    (∀ n, n ∈ (deleteNode s nid).nodes ↔ n ∈ s.nodes ∧ n.id ≠ nid) ∧
    (∀ e, e ∈ (deleteNode s nid).edges ↔
      e ∈ s.edges ∧ e.fromId ≠ nid ∧ e.toId ≠ nid) ∧
    mapGet (deleteNode s nid).adjacencyList nid = none ∧
    (∀ p ∈ (deleteNode s nid).adjacencyList, p.1 ≠ nid ∧ ∀ a ∈ p.2, a.node ≠ nid) ∧
    (deleteNode s nid).startNode =
      (if s.startNode = some nid then none else s.startNode) ∧
    (NoDangling s → NoDangling (deleteNode s nid)) := by
  refine ⟨?_, ?_, ?_, ?_, rfl, ?_⟩
  · intro n
    simp [deleteNode, List.mem_filter]
  · intro e
    simp [deleteNode, List.mem_filter, and_assoc]
  · show mapGet ((mapDelete s.adjacencyList nid).map
      (fun p => (p.1, p.2.filter (fun a => decide (a.node ≠ nid))))) nid = none
    rw [mapGet_scrub, mapGet_mapDelete_self s.adjacencyList nid hkeys]
    rfl
  · rintro p hp
    rcases List.mem_map.mp hp with ⟨q, hq, rfl⟩
    have h1 : q.1 ≠ nid := mapDelete_key_ne hkeys hq
    refine ⟨h1, ?_⟩
    intro a ha
    have := (List.mem_filter.mp ha).2
    exact of_decide_eq_true this
  · rintro ⟨hedges, hadj⟩
    constructor
    · intro e he
      have hm := hedges e
      simp only [deleteNode, List.mem_filter, decide_eq_true_eq, Bool.and_eq_true] at he
      refine ⟨(nodeIds_deleteNode s nid e.fromId).mpr
          ⟨(hm he.1).1, he.2.1⟩,
        (nodeIds_deleteNode s nid e.toId).mpr ⟨(hm he.1).2, he.2.2⟩⟩
    · rintro p hp
      rcases List.mem_map.mp hp with ⟨q, hq, rfl⟩
      have hqmem := mem_of_mem_mapDelete hq
      have hold := hadj q hqmem
      refine ⟨(nodeIds_deleteNode s nid q.1).mpr
          ⟨hold.1, mapDelete_key_ne hkeys hq⟩, ?_⟩
      intro a ha
      have hmem' := List.mem_filter.mp ha
      exact (nodeIds_deleteNode s nid a.node).mpr
        ⟨hold.2 a hmem'.1, of_decide_eq_true hmem'.2⟩

/-- C8, witness: deleting node B (id 1) from the scenario graph. -/
theorem deleteNode_spec_witness :
    (∀ n, n ∈ (deleteNode sampleState 1).nodes ↔ n ∈ sampleState.nodes ∧ n.id ≠ 1) ∧
    (∀ e, e ∈ (deleteNode sampleState 1).edges ↔
      e ∈ sampleState.edges ∧ e.fromId ≠ 1 ∧ e.toId ≠ 1) ∧
    mapGet (deleteNode sampleState 1).adjacencyList 1 = none ∧
    (∀ p ∈ (deleteNode sampleState 1).adjacencyList, p.1 ≠ 1 ∧ ∀ a ∈ p.2, a.node ≠ 1) ∧
    (deleteNode sampleState 1).startNode =
      (if sampleState.startNode = some 1 then none else sampleState.startNode) ∧
    (NoDangling sampleState → NoDangling (deleteNode sampleState 1)) :=
  deleteNode_spec sampleState 1 (by decide) (by decide)

/-! ## Claims about id allocation (C9) -/

/-- C9, counterexample: the session `addNode; clear; addNode` assigns
the id 0 twice — `clear()` resets the allocator, so ids ARE reused
within a session that clears. -/
theorem runOps_clear_reuses_ids :
    (runOps initState [StoreOp.add 0 0, StoreOp.clear, StoreOp.add 0 0]).2 = [0, 0] ∧
    ¬ ([0, 0] : List NodeId).Nodup := by decide

/-- Ids assigned by a clear-free operation sequence are at least the
current allocator value and strictly increasing. -/
theorem runOps_ids_mono (ops : List StoreOp) (h : NoClear ops) :
    ∀ s : GraphState, ((runOps s ops).2).Sorted (· < ·) ∧
      ∀ i ∈ (runOps s ops).2, s.nodeIdCounter ≤ i := by
  induction ops with
  | nil =>
    intro s
    refine ⟨List.sorted_nil, ?_⟩
    intro i hi
    simp [runOps] at hi
  | cons op rest ih =>
    intro s
    have hrest : NoClear rest := fun o ho => h o (List.mem_cons_of_mem _ ho)
    cases op with
    | add x y =>
      have hr := ih hrest (addNode s x y)
      have hc : (addNode s x y).nodeIdCounter = s.nodeIdCounter + 1 := rfl
      have hr2 : ∀ i ∈ (runOps (addNode s x y) rest).2, s.nodeIdCounter + 1 ≤ i := by
        intro i hi
        have := hr.2 i hi
        rwa [hc] at this
      have hids : (runOps s (StoreOp.add x y :: rest)).2 =
          s.nodeIdCounter :: (runOps (addNode s x y) rest).2 := rfl
      rw [hids]
      constructor
      · rw [List.sorted_cons]
        exact ⟨fun b hb => Nat.lt_of_lt_of_le (Nat.lt_succ_self _) (hr2 b hb), hr.1⟩
      · intro i hi
        rcases List.mem_cons.mp hi with rfl | hi
        · exact Nat.le_refl _
        · exact Nat.le_trans (Nat.le_succ _) (hr2 i hi)
    | delete nid =>
      have hr := ih hrest (deleteNode s nid)
      have hc : (deleteNode s nid).nodeIdCounter = s.nodeIdCounter := rfl
      have hids : (runOps s (StoreOp.delete nid :: rest)).2 =
          (runOps (deleteNode s nid) rest).2 := rfl
      rw [hids]
      exact ⟨hr.1, fun i hi => hc ▸ hr.2 i hi⟩
    | clear => exact absurd rfl (h StoreOp.clear (List.mem_cons_self _ _))

/-- C9 (amended): within a session consisting of `addNode` and
`deleteNode` operations (no `clear`, which resets the allocator), the
assigned ids are strictly increasing and never reused. -/
theorem runOps_ids_nodup (ops : List StoreOp) (h : NoClear ops) :
    ((runOps initState ops).2).Sorted (· < ·) ∧ ((runOps initState ops).2).Nodup :=
  ⟨(runOps_ids_mono ops h initState).1, ((runOps_ids_mono ops h initState).1).nodup⟩

/-- C9, witness. -/
theorem runOps_ids_nodup_witness :
    ((runOps initState [StoreOp.add 0 0, StoreOp.delete 0, StoreOp.add 1 1]).2).Sorted
        (· < ·) ∧
      ((runOps initState [StoreOp.add 0 0, StoreOp.delete 0, StoreOp.add 1 1]).2).Nodup :=
  runOps_ids_nodup [StoreOp.add 0 0, StoreOp.delete 0, StoreOp.add 1 1] (by decide)

/-! ## Generic facts about `visitNodes` and the loop unfoldings -/

theorem visitNodes_nil : visitNodes [] = [] := rfl

theorem visitNodes_append (l1 l2 : List Event) :
    visitNodes (l1 ++ l2) = visitNodes l1 ++ visitNodes l2 :=
  List.filterMap_append l1 l2 _

theorem visitNodes_cons_visit (n : NodeId) (d : Option Nat) (e : Option (NodeId × NodeId))
    (l : List Event) :
    visitNodes (Event.visit n d e :: l) = n :: visitNodes l := rfl

theorem visitNodes_cons_enqueue (n : NodeId) (d : Option Nat) (e : Option (NodeId × NodeId))
    (l : List Event) :
    visitNodes (Event.enqueue n d e :: l) = visitNodes l := rfl

theorem visitNodes_cons_setDistance (n : NodeId) (d : Nat) (l : List Event) :
    visitNodes (Event.setDistance n d :: l) = visitNodes l := rfl

theorem visitNodes_enqueue_map {α : Type} (l : List α) (g : α → NodeId)
    (d : α → Option Nat) (e : α → Option (NodeId × NodeId)) :
    visitNodes (l.map (fun a => Event.enqueue (g a) (d a) (e a))) = [] := by
  induction l with
  | nil => rfl
  | cons a rest ih => rw [List.map_cons, visitNodes_cons_enqueue, ih]

/-! ### Unfolding equations for `bfsLoop` -/

theorem bfsLoop_nil (adj : AdjList) (fuel : Nat) (visited : List NodeId) :
    bfsLoop adj (fuel + 1) visited [] = ([], visited, []) := rfl

theorem bfsLoop_skip (adj : AdjList) (fuel : Nat) (visited : List NodeId)
    {current : NodeId} (rest : List NodeId) (h : current ∈ visited) :
    bfsLoop adj (fuel + 1) visited (current :: rest) = bfsLoop adj fuel visited rest := by
  simp only [bfsLoop]
  rw [if_pos h]

theorem bfsLoop_visit (adj : AdjList) (fuel : Nat) (visited : List NodeId)
    {current : NodeId} (rest : List NodeId) (h : current ∉ visited) :
    bfsLoop adj (fuel + 1) visited (current :: rest) =
      (Event.visit current none none ::
        ((bfsPush adj visited current).map
            (fun a => Event.enqueue a.node none (some (current, a.node))) ++
          (bfsLoop adj fuel (current :: visited)
            (rest ++ (bfsPush adj visited current).map (fun a => a.node))).1),
        (bfsLoop adj fuel (current :: visited)
          (rest ++ (bfsPush adj visited current).map (fun a => a.node))).2) := by
  simp only [bfsLoop]
  rw [if_neg h]

/-! ### Potential: fuel adequacy -/

theorem adjPotential_mono (adj : AdjList) (v : NodeId) (visited : List NodeId) :
    adjPotential adj (v :: visited) ≤ adjPotential adj visited := by
  induction adj with
  | nil => exact Nat.le_refl 0
  | cons p rest ih =>
    rw [adjPotential, adjPotential]
    refine Nat.add_le_add ?_ ih
    by_cases h : p.1 ∈ visited
    · rw [if_pos (List.mem_cons_of_mem _ h), if_pos h]
    · by_cases hv : p.1 = v
      · rw [if_pos (hv ▸ List.mem_cons_self _ _)]
        exact Nat.zero_le _
      · rw [if_neg (by simp [hv, h]), if_neg h]

theorem adjPotential_visit (adj : AdjList) {v : NodeId} (visited : List NodeId)
    (hv : v ∉ visited) :
    adjPotential adj (v :: visited) + (adjOf adj v).length ≤ adjPotential adj visited := by
  induction adj with
  | nil =>
    show 0 + (List.length []) ≤ 0
    exact Nat.le_refl 0
  | cons p rest ih =>
    rw [adjPotential, adjPotential]
    by_cases hp : p.1 = v
    · have hAdj : adjOf (p :: rest) v = p.2 := by
        rw [adjOf, mapGet, if_pos hp]
        rfl
      rw [hAdj, if_pos (hp ▸ List.mem_cons_self _ _), if_neg (hp ▸ hv), Nat.zero_add]
      calc adjPotential rest (v :: visited) + p.2.length
          ≤ adjPotential rest visited + p.2.length :=
            Nat.add_le_add_right (adjPotential_mono rest v visited) _
        _ = p.2.length + adjPotential rest visited := Nat.add_comm _ _
    · have hAdj : adjOf (p :: rest) v = adjOf rest v := by
        rw [adjOf, mapGet, if_neg hp]
        rfl
      rw [hAdj]
      have hif : (if p.1 ∈ v :: visited then 0 else p.2.length) =
          (if p.1 ∈ visited then 0 else p.2.length) := by
        by_cases h : p.1 ∈ visited
        · rw [if_pos (List.mem_cons_of_mem _ h), if_pos h]
        · rw [if_neg (by simp [hp, h]), if_neg h]
      rw [hif, Nat.add_assoc]
      exact Nat.add_le_add_left ih _

theorem bfsPush_length_le (adj : AdjList) (visited : List NodeId) (current : NodeId) :
    (bfsPush adj visited current).length ≤ (adjOf adj current).length :=
  List.length_filter_le _ _

theorem bfsLoop_queue_nil (adj : AdjList) :
    ∀ fuel visited queue, queue.length + adjPotential adj visited ≤ fuel →
      (bfsLoop adj fuel visited queue).2.2 = [] := by
  intro fuel
  induction fuel with
  | zero =>
    intro visited queue h
    have hq : queue = [] := by
      cases queue with
      | nil => rfl
      | cons a l => simp at h
    subst hq
    rfl
  | succ fuel ih =>
    intro visited queue h
    cases queue with
    | nil => rw [bfsLoop_nil]
    | cons current rest =>
      by_cases hc : current ∈ visited
      · rw [bfsLoop_skip adj fuel visited rest hc]
        apply ih
        simp only [List.length_cons] at h
        omega
      · rw [bfsLoop_visit adj fuel visited rest hc]
        apply ih
        have h1 : (bfsPush adj visited current).length ≤ (adjOf adj current).length :=
          bfsPush_length_le adj visited current
        have h2 : adjPotential adj (current :: visited) + (adjOf adj current).length ≤
            adjPotential adj visited := adjPotential_visit adj visited hc
        simp only [List.length_append, List.length_map, List.length_cons] at h ⊢
        omega

/-! ### The final visited set is the recorded visit order -/

theorem bfsLoop_visited_eq (adj : AdjList) :
    ∀ fuel visited queue,
      (bfsLoop adj fuel visited queue).2.1 =
        (visitNodes (bfsLoop adj fuel visited queue).1).reverse ++ visited := by
  intro fuel
  induction fuel with
  | zero => intro visited queue; rfl
  | succ fuel ih =>
    intro visited queue
    cases queue with
    | nil => rfl
    | cons current rest =>
      by_cases hc : current ∈ visited
      · rw [bfsLoop_skip adj fuel visited rest hc]
        exact ih visited rest
      · rw [bfsLoop_visit adj fuel visited rest hc, visitNodes_cons_visit,
          visitNodes_append, visitNodes_enqueue_map, List.nil_append, List.reverse_cons,
          List.append_assoc]
        exact ih (current :: visited) _

/-- Every visit recorded by the loop is of a node not yet visited at
entry, and no node is visited twice. -/
theorem bfsLoop_visits_nodup (adj : AdjList) :
    ∀ fuel visited queue,
      (∀ v ∈ visitNodes (bfsLoop adj fuel visited queue).1, v ∉ visited) ∧
      (visitNodes (bfsLoop adj fuel visited queue).1).Nodup := by
  intro fuel
  induction fuel with
  | zero => intro visited queue; exact ⟨fun v hv => absurd hv (List.not_mem_nil v), List.nodup_nil⟩
  | succ fuel ih =>
    intro visited queue
    cases queue with
    | nil =>
      rw [bfsLoop_nil]
      exact ⟨fun v hv => absurd hv (List.not_mem_nil v), List.nodup_nil⟩
    | cons current rest =>
      by_cases hc : current ∈ visited
      · rw [bfsLoop_skip adj fuel visited rest hc]
        exact ih visited rest
      · rw [bfsLoop_visit adj fuel visited rest hc, visitNodes_cons_visit,
          visitNodes_append, visitNodes_enqueue_map, List.nil_append]
        have hrec := ih (current :: visited) (rest ++ (bfsPush adj visited current).map
          (fun a => a.node))
        constructor
        · intro v hv
          rcases List.mem_cons.mp hv with rfl | hv
          · exact hc
          · exact fun hmem => hrec.1 v hv (List.mem_cons_of_mem _ hmem)
        · rw [List.nodup_cons]
          exact ⟨fun hmem => hrec.1 current hmem (List.mem_cons_self _ _), hrec.2⟩

/-! ### Frontier absorption, closure, and reachability for `bfsLoop` -/

theorem bfsLoop_absorb (adj : AdjList) :
    ∀ fuel visited queue, ∀ x, (x ∈ visited ∨ x ∈ queue) →
      x ∈ (bfsLoop adj fuel visited queue).2.1 ∨ x ∈ (bfsLoop adj fuel visited queue).2.2 := by
  intro fuel
  induction fuel with
  | zero => intro visited queue x hx; exact hx
  | succ fuel ih =>
    intro visited queue x hx
    cases queue with
    | nil =>
      rw [bfsLoop_nil]
      rcases hx with hx | hx
      · exact Or.inl hx
      · exact absurd hx (List.not_mem_nil x)
    | cons current rest =>
      by_cases hc : current ∈ visited
      · rw [bfsLoop_skip adj fuel visited rest hc]
        apply ih
        rcases hx with hx | hx
        · exact Or.inl hx
        · rcases List.mem_cons.mp hx with rfl | hx
          · exact Or.inl hc
          · exact Or.inr hx
      · rw [bfsLoop_visit adj fuel visited rest hc]
        apply ih
        rcases hx with hx | hx
        · exact Or.inl (List.mem_cons_of_mem _ hx)
        · rcases List.mem_cons.mp hx with rfl | hx
          · exact Or.inl (List.mem_cons_self _ _)
          · exact Or.inr (List.mem_append_left _ hx)

theorem bfsLoop_closed (adj : AdjList) :
    ∀ fuel visited queue,
      (∀ u ∈ visited, ∀ a ∈ adjOf adj u, a.node ∈ visited ∨ a.node ∈ queue) →
      ∀ u ∈ (bfsLoop adj fuel visited queue).2.1, ∀ a ∈ adjOf adj u,
        a.node ∈ (bfsLoop adj fuel visited queue).2.1 ∨
          a.node ∈ (bfsLoop adj fuel visited queue).2.2 := by
  intro fuel
  induction fuel with
  | zero => intro visited queue hcl; exact hcl
  | succ fuel ih =>
    intro visited queue hcl
    cases queue with
    | nil => rw [bfsLoop_nil] at *; exact hcl
    | cons current rest =>
      by_cases hc : current ∈ visited
      · rw [bfsLoop_skip adj fuel visited rest hc]
        apply ih
        intro u hu a ha
        rcases hcl u hu a ha with hm | hm
        · exact Or.inl hm
        · rcases List.mem_cons.mp hm with heq | hm
          · exact Or.inl (heq ▸ hc)
          · exact Or.inr hm
      · rw [bfsLoop_visit adj fuel visited rest hc]
        apply ih
        intro u hu a ha
        rcases List.mem_cons.mp hu with heq | hu
        · rw [heq] at ha
          by_cases hmem : a.node ∈ current :: visited
          · exact Or.inl hmem
          · refine Or.inr (List.mem_append_right _ ?_)
            exact List.mem_map_of_mem _ (List.mem_filter.mpr ⟨ha, decide_eq_true hmem⟩)
        · rcases hcl u hu a ha with hm | hm
          · exact Or.inl (List.mem_cons_of_mem _ hm)
          · rcases List.mem_cons.mp hm with heq | hm
            · exact Or.inl (heq ▸ List.mem_cons_self _ _)
            · exact Or.inr (List.mem_append_left _ hm)

theorem bfsLoop_reach_sound (adj : AdjList) (start : NodeId) :
    ∀ fuel visited queue,
      (∀ v ∈ visited, Reaches adj start v) → (∀ q ∈ queue, Reaches adj start q) →
      ∀ v ∈ (bfsLoop adj fuel visited queue).2.1, Reaches adj start v := by
  intro fuel
  induction fuel with
  | zero => intro visited queue hv hq; exact hv
  | succ fuel ih =>
    intro visited queue hv hq
    cases queue with
    | nil => rw [bfsLoop_nil]; exact hv
    | cons current rest =>
      by_cases hc : current ∈ visited
      · rw [bfsLoop_skip adj fuel visited rest hc]
        exact ih visited rest hv (fun q hqm => hq q (List.mem_cons_of_mem _ hqm))
      · rw [bfsLoop_visit adj fuel visited rest hc]
        have hcur : Reaches adj start current := hq current (List.mem_cons_self _ _)
        apply ih
        · intro v hvm
          rcases List.mem_cons.mp hvm with rfl | hvm
          · exact hcur
          · exact hv v hvm
        · intro q hqm
          rcases List.mem_append.mp hqm with hqm | hqm
          · exact hq q (List.mem_cons_of_mem _ hqm)
          · rcases List.mem_map.mp hqm with ⟨a, hamem, rfl⟩
            rcases hcur with ⟨k, hk⟩
            exact ⟨k + 1, ReachesIn.step hk (List.mem_filter.mp hamem).1⟩

/-! ### The same development for `dfsLoop` -/

theorem dfsLoop_nil (adj : AdjList) (fuel : Nat) (visited : List NodeId) :
    dfsLoop adj (fuel + 1) visited [] = ([], visited, []) := rfl

theorem dfsLoop_skip (adj : AdjList) (fuel : Nat) (visited : List NodeId)
    {current : NodeId} (rest : List NodeId) (h : current ∈ visited) :
    dfsLoop adj (fuel + 1) visited (current :: rest) = dfsLoop adj fuel visited rest := by
  simp only [dfsLoop]
  rw [if_pos h]

theorem dfsLoop_visit (adj : AdjList) (fuel : Nat) (visited : List NodeId)
    {current : NodeId} (rest : List NodeId) (h : current ∉ visited) :
    dfsLoop adj (fuel + 1) visited (current :: rest) =
      (Event.visit current none none ::
        ((dfsPush adj visited current).map
            (fun a => Event.enqueue a.node none (some (current, a.node))) ++
          (dfsLoop adj fuel (current :: visited)
            (((dfsPush adj visited current).map (fun a => a.node)).reverse ++ rest)).1),
        (dfsLoop adj fuel (current :: visited)
          (((dfsPush adj visited current).map (fun a => a.node)).reverse ++ rest)).2) := by
  simp only [dfsLoop]
  rw [if_neg h]

theorem dfsPush_length_le (adj : AdjList) (visited : List NodeId) (current : NodeId) :
    (dfsPush adj visited current).length ≤ (adjOf adj current).length := by
  calc (dfsPush adj visited current).length ≤ ((adjOf adj current).reverse).length :=
        List.length_filter_le _ _
    _ = (adjOf adj current).length := List.length_reverse _

theorem dfsLoop_stack_nil (adj : AdjList) :
    ∀ fuel visited stack, stack.length + adjPotential adj visited ≤ fuel →
      (dfsLoop adj fuel visited stack).2.2 = [] := by
  intro fuel
  induction fuel with
  | zero =>
    intro visited stack h
    have hq : stack = [] := by
      cases stack with
      | nil => rfl
      | cons a l => simp at h
    subst hq
    rfl
  | succ fuel ih =>
    intro visited stack h
    cases stack with
    | nil => rw [dfsLoop_nil]
    | cons current rest =>
      by_cases hc : current ∈ visited
      · rw [dfsLoop_skip adj fuel visited rest hc]
        apply ih
        simp only [List.length_cons] at h
        omega
      · rw [dfsLoop_visit adj fuel visited rest hc]
        apply ih
        have h1 : (dfsPush adj visited current).length ≤ (adjOf adj current).length :=
          dfsPush_length_le adj visited current
        have h2 : adjPotential adj (current :: visited) + (adjOf adj current).length ≤
            adjPotential adj visited := adjPotential_visit adj visited hc
        simp only [List.length_append, List.length_reverse, List.length_map,
          List.length_cons] at h ⊢
        omega

theorem dfsLoop_visited_eq (adj : AdjList) :
    ∀ fuel visited stack,
      (dfsLoop adj fuel visited stack).2.1 =
        (visitNodes (dfsLoop adj fuel visited stack).1).reverse ++ visited := by
  intro fuel
  induction fuel with
  | zero => intro visited stack; rfl
  | succ fuel ih =>
    intro visited stack
    cases stack with
    | nil => rfl
    | cons current rest =>
      by_cases hc : current ∈ visited
      · rw [dfsLoop_skip adj fuel visited rest hc]
        exact ih visited rest
      · rw [dfsLoop_visit adj fuel visited rest hc, visitNodes_cons_visit,
          visitNodes_append, visitNodes_enqueue_map, List.nil_append, List.reverse_cons,
          List.append_assoc]
        exact ih (current :: visited) _

theorem dfsLoop_visits_nodup (adj : AdjList) :
    ∀ fuel visited stack,
      (∀ v ∈ visitNodes (dfsLoop adj fuel visited stack).1, v ∉ visited) ∧
      (visitNodes (dfsLoop adj fuel visited stack).1).Nodup := by
  intro fuel
  induction fuel with
  | zero => intro visited stack; exact ⟨fun v hv => absurd hv (List.not_mem_nil v), List.nodup_nil⟩
  | succ fuel ih =>
    intro visited stack
    cases stack with
    | nil =>
      rw [dfsLoop_nil]
      exact ⟨fun v hv => absurd hv (List.not_mem_nil v), List.nodup_nil⟩
    | cons current rest =>
      by_cases hc : current ∈ visited
      · rw [dfsLoop_skip adj fuel visited rest hc]
        exact ih visited rest
      · rw [dfsLoop_visit adj fuel visited rest hc, visitNodes_cons_visit,
          visitNodes_append, visitNodes_enqueue_map, List.nil_append]
        have hrec := ih (current :: visited)
          (((dfsPush adj visited current).map (fun a => a.node)).reverse ++ rest)
        constructor
        · intro v hv
          rcases List.mem_cons.mp hv with rfl | hv
          · exact hc
          · exact fun hmem => hrec.1 v hv (List.mem_cons_of_mem _ hmem)
        · rw [List.nodup_cons]
          exact ⟨fun hmem => hrec.1 current hmem (List.mem_cons_self _ _), hrec.2⟩

theorem dfsLoop_absorb (adj : AdjList) :
    ∀ fuel visited stack, ∀ x, (x ∈ visited ∨ x ∈ stack) →
      x ∈ (dfsLoop adj fuel visited stack).2.1 ∨ x ∈ (dfsLoop adj fuel visited stack).2.2 := by
  intro fuel
  induction fuel with
  | zero => intro visited stack x hx; exact hx
  | succ fuel ih =>
    intro visited stack x hx
    cases stack with
    | nil =>
      rw [dfsLoop_nil]
      rcases hx with hx | hx
      · exact Or.inl hx
      · exact absurd hx (List.not_mem_nil x)
    | cons current rest =>
      by_cases hc : current ∈ visited
      · rw [dfsLoop_skip adj fuel visited rest hc]
        apply ih
        rcases hx with hx | hx
        · exact Or.inl hx
        · rcases List.mem_cons.mp hx with rfl | hx
          · exact Or.inl hc
          · exact Or.inr hx
      · rw [dfsLoop_visit adj fuel visited rest hc]
        apply ih
        rcases hx with hx | hx
        · exact Or.inl (List.mem_cons_of_mem _ hx)
        · rcases List.mem_cons.mp hx with rfl | hx
          · exact Or.inl (List.mem_cons_self _ _)
          · exact Or.inr (List.mem_append_right _ hx)

theorem dfsLoop_closed (adj : AdjList) :
    ∀ fuel visited stack,
      (∀ u ∈ visited, ∀ a ∈ adjOf adj u, a.node ∈ visited ∨ a.node ∈ stack) →
      ∀ u ∈ (dfsLoop adj fuel visited stack).2.1, ∀ a ∈ adjOf adj u,
        a.node ∈ (dfsLoop adj fuel visited stack).2.1 ∨
          a.node ∈ (dfsLoop adj fuel visited stack).2.2 := by
  intro fuel
  induction fuel with
  | zero => intro visited stack hcl; exact hcl
  | succ fuel ih =>
    intro visited stack hcl
    cases stack with
    | nil => rw [dfsLoop_nil] at *; exact hcl
    | cons current rest =>
      by_cases hc : current ∈ visited
      · rw [dfsLoop_skip adj fuel visited rest hc]
        apply ih
        intro u hu a ha
        rcases hcl u hu a ha with hm | hm
        · exact Or.inl hm
        · rcases List.mem_cons.mp hm with heq | hm
          · exact Or.inl (heq ▸ hc)
          · exact Or.inr hm
      · rw [dfsLoop_visit adj fuel visited rest hc]
        apply ih
        intro u hu a ha
        rcases List.mem_cons.mp hu with heq | hu
        · rw [heq] at ha
          by_cases hmem : a.node ∈ current :: visited
          · exact Or.inl hmem
          · refine Or.inr (List.mem_append_left _ ?_)
            rw [List.mem_reverse]
            exact List.mem_map_of_mem _
              (List.mem_filter.mpr ⟨List.mem_reverse.mpr ha, decide_eq_true hmem⟩)
        · rcases hcl u hu a ha with hm | hm
          · exact Or.inl (List.mem_cons_of_mem _ hm)
          · rcases List.mem_cons.mp hm with heq | hm
            · exact Or.inl (heq ▸ List.mem_cons_self _ _)
            · exact Or.inr (List.mem_append_right _ hm)

theorem dfsLoop_reach_sound (adj : AdjList) (start : NodeId) :
    ∀ fuel visited stack,
      (∀ v ∈ visited, Reaches adj start v) → (∀ q ∈ stack, Reaches adj start q) →
      ∀ v ∈ (dfsLoop adj fuel visited stack).2.1, Reaches adj start v := by
  intro fuel
  induction fuel with
  | zero => intro visited stack hv hq; exact hv
  | succ fuel ih =>
    intro visited stack hv hq
    cases stack with
    | nil => rw [dfsLoop_nil]; exact hv
    | cons current rest =>
      by_cases hc : current ∈ visited
      · rw [dfsLoop_skip adj fuel visited rest hc]
        exact ih visited rest hv (fun q hqm => hq q (List.mem_cons_of_mem _ hqm))
      · rw [dfsLoop_visit adj fuel visited rest hc]
        have hcur : Reaches adj start current := hq current (List.mem_cons_self _ _)
        apply ih
        · intro v hvm
          rcases List.mem_cons.mp hvm with rfl | hvm
          · exact hcur
          · exact hv v hvm
        · intro q hqm
          rcases List.mem_append.mp hqm with hqm | hqm
          · rw [List.mem_reverse] at hqm
            rcases List.mem_map.mp hqm with ⟨a, hamem, rfl⟩
            rcases hcur with ⟨k, hk⟩
            exact ⟨k + 1, ReachesIn.step hk (List.mem_reverse.mp
              (List.mem_filter.mp hamem).1)⟩
          · exact hq q (List.mem_cons_of_mem _ hqm)

/-! ### Map update lemmas for the distance table -/

theorem mapGet_mapSet_self {α : Type} (m : List (NodeId × α)) (k : NodeId) (v : α) :
    mapGet (mapSet m k v) k = some v := by
  induction m with
  | nil => simp [mapSet, mapGet]
  | cons p rest ih =>
    rw [mapSet]
    by_cases hp : p.1 = k
    · rw [if_pos hp, mapGet, if_pos rfl]
    · rw [if_neg hp, mapGet, if_neg hp, ih]

theorem mapGet_mapSet_ne {α : Type} (m : List (NodeId × α)) (k k' : NodeId) (v : α)
    (h : k' ≠ k) : mapGet (mapSet m k v) k' = mapGet m k' := by
  induction m with
  | nil =>
    simp only [mapSet, mapGet]
    rw [if_neg (fun hk => h hk.symm)]
  | cons p rest ih =>
    rw [mapSet]
    by_cases hp : p.1 = k
    · rw [if_pos hp]
      simp only [mapGet]
      rw [if_neg (fun hk => h hk.symm), if_neg (fun hk => h (hk.symm.trans hp))]
    · rw [if_neg hp]
      simp only [mapGet]
      rw [ih]

theorem mapGet_mem {α : Type} {m : List (NodeId × α)} {k : NodeId} {v : α}
    (h : mapGet m k = some v) : (k, v) ∈ m := by
  induction m with
  | nil => exact absurd h (fun hc => Option.noConfusion hc)
  | cons p rest ih =>
    rw [mapGet] at h
    by_cases hp : p.1 = k
    · rw [if_pos hp] at h
      have hpv : p = (k, v) := by
        obtain ⟨p1, p2⟩ := p
        obtain rfl : p2 = v := Option.some.inj h
        obtain rfl : p1 = k := hp
        rfl
      exact hpv ▸ List.mem_cons_self _ _
    · rw [if_neg hp] at h
      exact List.mem_cons_of_mem _ (ih h)

/-! ### The priority-queue sort -/

theorem sortPq_perm (pq : List (NodeId × Nat)) : (sortPq pq).Perm pq :=
  List.perm_insertionSort pqLE pq

theorem sortPq_sorted (pq : List (NodeId × Nat)) : (sortPq pq).Sorted pqLE :=
  List.sorted_insertionSort pqLE pq

theorem sortPq_mem {pq : List (NodeId × Nat)} {p : NodeId × Nat} :
    p ∈ sortPq pq ↔ p ∈ pq :=
  (sortPq_perm pq).mem_iff

/-- The head of the sorted queue is a minimal tentative distance. -/
theorem sortPq_head_min {pq rest : List (NodeId × Nat)} {u : NodeId} {d : Nat}
    (h : sortPq pq = (u, d) :: rest) : ∀ p ∈ pq, d ≤ p.2 := by
  intro p hp
  have hmem : p ∈ (u, d) :: rest := h ▸ sortPq_mem.mpr hp
  rcases List.mem_cons.mp hmem with rfl | hmem
  · exact Nat.le_refl _
  · have hs := sortPq_sorted pq
    rw [h, List.sorted_cons] at hs
    exact hs.1 p hmem

theorem sortPq_length (pq : List (NodeId × Nat)) : (sortPq pq).length = pq.length :=
  (sortPq_perm pq).length_eq

/-! ### Unfolding equations for `relaxAll` -/

theorem relaxAll_nil (visited : List NodeId) (current : NodeId) (dist : Nat)
    (dists : List (NodeId × NatInf)) (pq : List (NodeId × Nat)) :
    relaxAll visited current dist [] dists pq = (dists, pq, []) := rfl

theorem relaxAll_vis (visited : List NodeId) (current : NodeId) (dist : Nat)
    {a : AdjEntry} (restN : List AdjEntry) (dists : List (NodeId × NatInf))
    (pq : List (NodeId × Nat)) (ha : a.node ∈ visited) :
    relaxAll visited current dist (a :: restN) dists pq =
      relaxAll visited current dist restN dists pq := by
  simp only [relaxAll, if_pos ha]

theorem relaxAll_none (visited : List NodeId) (current : NodeId) (dist : Nat)
    {a : AdjEntry} (restN : List AdjEntry) (dists : List (NodeId × NatInf))
    (pq : List (NodeId × Nat)) (ha : a.node ∉ visited)
    (hget : mapGet dists a.node = none) :
    relaxAll visited current dist (a :: restN) dists pq =
      relaxAll visited current dist restN dists pq := by
  simp only [relaxAll, if_neg ha, hget]

theorem relaxAll_noimp (visited : List NodeId) (current : NodeId) (dist : Nat)
    {a : AdjEntry} (restN : List AdjEntry) (dists : List (NodeId × NatInf))
    (pq : List (NodeId × Nat)) (ha : a.node ∉ visited) {dv : NatInf}
    (hget : mapGet dists a.node = some dv)
    (hge : ¬ ((dist + a.weight : Nat) : NatInf) < dv) :
    relaxAll visited current dist (a :: restN) dists pq =
      relaxAll visited current dist restN dists pq := by
  simp only [relaxAll, if_neg ha, hget, if_neg hge]

theorem relaxAll_update (visited : List NodeId) (current : NodeId) (dist : Nat)
    {a : AdjEntry} (restN : List AdjEntry) (dists : List (NodeId × NatInf))
    (pq : List (NodeId × Nat)) (ha : a.node ∉ visited) {dv : NatInf}
    (hget : mapGet dists a.node = some dv)
    (hlt : ((dist + a.weight : Nat) : NatInf) < dv) :
    relaxAll visited current dist (a :: restN) dists pq =
      ((relaxAll visited current dist restN
          (mapSet dists a.node ((dist + a.weight : Nat) : NatInf))
          (pq ++ [(a.node, dist + a.weight)])).1,
        (relaxAll visited current dist restN
          (mapSet dists a.node ((dist + a.weight : Nat) : NatInf))
          (pq ++ [(a.node, dist + a.weight)])).2.1,
        Event.enqueue a.node (some (dist + a.weight)) (some (current, a.node)) ::
          (relaxAll visited current dist restN
            (mapSet dists a.node ((dist + a.weight : Nat) : NatInf))
            (pq ++ [(a.node, dist + a.weight)])).2.2) := by
  simp only [relaxAll, if_neg ha, hget, if_pos hlt]

/-! ### Structural lemmas about `relaxAll` -/

theorem relaxAll_pq_mono (visited : List NodeId) (current : NodeId) (dist : Nat) :
    ∀ entries dists pq, ∀ p ∈ pq,
      p ∈ (relaxAll visited current dist entries dists pq).2.1 := by
  intro entries
  induction entries with
  | nil => intro dists pq p hp; exact hp
  | cons a restN ih =>
    intro dists pq p hp
    by_cases ha : a.node ∈ visited
    · rw [relaxAll_vis visited current dist restN dists pq ha]
      exact ih dists pq p hp
    · cases hget : mapGet dists a.node with
      | none =>
        rw [relaxAll_none visited current dist restN dists pq ha hget]
        exact ih dists pq p hp
      | some dv =>
        by_cases hlt : ((dist + a.weight : Nat) : NatInf) < dv
        · rw [relaxAll_update visited current dist restN dists pq ha hget hlt]
          exact ih _ _ p (List.mem_append_left _ hp)
        · rw [relaxAll_noimp visited current dist restN dists pq ha hget hlt]
          exact ih dists pq p hp

theorem relaxAll_pq_length (visited : List NodeId) (current : NodeId) (dist : Nat) :
    ∀ entries dists pq,
      (relaxAll visited current dist entries dists pq).2.1.length ≤
        pq.length + entries.length := by
  intro entries
  induction entries with
  | nil => intro dists pq; exact Nat.le_add_right _ _
  | cons a restN ih =>
    intro dists pq
    have hstep : ∀ (d2 : List (NodeId × NatInf)) (p2 : List (NodeId × Nat)),
        p2.length ≤ pq.length + 1 →
        (relaxAll visited current dist restN d2 p2).2.1.length ≤
          pq.length + (a :: restN).length := by
      intro d2 p2 hp2
      calc (relaxAll visited current dist restN d2 p2).2.1.length
          ≤ p2.length + restN.length := ih d2 p2
        _ ≤ (pq.length + 1) + restN.length := Nat.add_le_add_right hp2 _
        _ = pq.length + (a :: restN).length := by
            simp only [List.length_cons]
            omega
    by_cases ha : a.node ∈ visited
    · rw [relaxAll_vis visited current dist restN dists pq ha]
      exact hstep dists pq (Nat.le_succ _)
    · cases hget : mapGet dists a.node with
      | none =>
        rw [relaxAll_none visited current dist restN dists pq ha hget]
        exact hstep dists pq (Nat.le_succ _)
      | some dv =>
        by_cases hlt : ((dist + a.weight : Nat) : NatInf) < dv
        · rw [relaxAll_update visited current dist restN dists pq ha hget hlt]
          refine hstep _ _ ?_
          simp only [List.length_append, List.length_cons, List.length_nil]
          omega
        · rw [relaxAll_noimp visited current dist restN dists pq ha hget hlt]
          exact hstep dists pq (Nat.le_succ _)

/-- Every event emitted during relaxation is an `enqueue`. -/
theorem relaxAll_events_enqueue (visited : List NodeId) (current : NodeId) (dist : Nat) :
    ∀ entries dists pq, ∀ e ∈ (relaxAll visited current dist entries dists pq).2.2,
      ∃ n dd ee, e = Event.enqueue n dd ee := by
  intro entries
  induction entries with
  | nil => intro dists pq e he; exact absurd he (List.not_mem_nil e)
  | cons a restN ih =>
    intro dists pq e he
    by_cases ha : a.node ∈ visited
    · rw [relaxAll_vis visited current dist restN dists pq ha] at he
      exact ih dists pq e he
    · cases hget : mapGet dists a.node with
      | none =>
        rw [relaxAll_none visited current dist restN dists pq ha hget] at he
        exact ih dists pq e he
      | some dv =>
        by_cases hlt : ((dist + a.weight : Nat) : NatInf) < dv
        · rw [relaxAll_update visited current dist restN dists pq ha hget hlt] at he
          rcases List.mem_cons.mp he with rfl | he
          · exact ⟨a.node, some (dist + a.weight), some (current, a.node), rfl⟩
          · exact ih _ _ e he
        · rw [relaxAll_noimp visited current dist restN dists pq ha hget hlt] at he
          exact ih dists pq e he

theorem relaxAll_visitNodes (visited : List NodeId) (current : NodeId) (dist : Nat)
    (entries : List AdjEntry) (dists : List (NodeId × NatInf))
    (pq : List (NodeId × Nat)) :
    visitNodes (relaxAll visited current dist entries dists pq).2.2 = [] := by
  cases hv : visitNodes (relaxAll visited current dist entries dists pq).2.2 with
  | nil => rfl
  | cons n rest =>
    exfalso
    have hn : n ∈ visitNodes (relaxAll visited current dist entries dists pq).2.2 := by
      rw [hv]
      exact List.mem_cons_self _ _
    rcases List.mem_filterMap.mp hn with ⟨e, he, hfn⟩
    rcases relaxAll_events_enqueue visited current dist entries dists pq e he with
      ⟨m, dd, ee, rfl⟩
    exact Option.noConfusion hfn

/-- Relaxation never touches the distance of a visited node. -/
theorem relaxAll_dists_visited (visited : List NodeId) (current : NodeId) (dist : Nat) :
    ∀ entries dists pq, ∀ v ∈ visited,
      mapGet (relaxAll visited current dist entries dists pq).1 v = mapGet dists v := by
  intro entries
  induction entries with
  | nil => intro dists pq v hv; rfl
  | cons a restN ih =>
    intro dists pq v hv
    by_cases ha : a.node ∈ visited
    · rw [relaxAll_vis visited current dist restN dists pq ha]
      exact ih dists pq v hv
    · cases hget : mapGet dists a.node with
      | none =>
        rw [relaxAll_none visited current dist restN dists pq ha hget]
        exact ih dists pq v hv
      | some dv =>
        by_cases hlt : ((dist + a.weight : Nat) : NatInf) < dv
        · rw [relaxAll_update visited current dist restN dists pq ha hget hlt,
            ih _ _ v hv, mapGet_mapSet_ne dists a.node v _ (fun hvk => ha (hvk ▸ hv))]
        · rw [relaxAll_noimp visited current dist restN dists pq ha hget hlt]
          exact ih dists pq v hv

/-- What a recorded distance looked like before relaxation: it existed
and was at least the final value. -/
theorem relaxAll_dists_le (visited : List NodeId) (current : NodeId) (dist : Nat) :
    ∀ entries dists pq, ∀ v dv',
      mapGet (relaxAll visited current dist entries dists pq).1 v = some dv' →
      ∃ dv, mapGet dists v = some dv ∧ dv' ≤ dv := by
  intro entries
  induction entries with
  | nil => intro dists pq v dv' h; exact ⟨dv', h, le_refl dv'⟩
  | cons a restN ih =>
    intro dists pq v dv' h
    by_cases ha : a.node ∈ visited
    · rw [relaxAll_vis visited current dist restN dists pq ha] at h
      exact ih dists pq v dv' h
    · cases hget : mapGet dists a.node with
      | none =>
        rw [relaxAll_none visited current dist restN dists pq ha hget] at h
        exact ih dists pq v dv' h
      | some dv0 =>
        by_cases hlt : ((dist + a.weight : Nat) : NatInf) < dv0
        · rw [relaxAll_update visited current dist restN dists pq ha hget hlt] at h
          rcases ih _ _ v dv' h with ⟨dv1, hdv1, hle1⟩
          by_cases hv : v = a.node
          · subst hv
            rw [mapGet_mapSet_self] at hdv1
            refine ⟨dv0, hget, ?_⟩
            have heq : dv1 = ((dist + a.weight : Nat) : NatInf) :=
              Option.some.inj hdv1.symm
            exact le_of_lt (lt_of_le_of_lt (heq ▸ hle1) hlt)
          · rw [mapGet_mapSet_ne dists a.node v _ hv] at hdv1
            exact ⟨dv1, hdv1, hle1⟩
        · rw [relaxAll_noimp visited current dist restN dists pq ha hget hlt] at h
          exact ih dists pq v dv' h

/-- Dually: every entry survives relaxation, possibly lowered. -/
theorem relaxAll_dists_ge (visited : List NodeId) (current : NodeId) (dist : Nat) :
    ∀ entries dists pq, ∀ v dv,
      mapGet dists v = some dv →
      ∃ dv', mapGet (relaxAll visited current dist entries dists pq).1 v = some dv' ∧
        dv' ≤ dv := by
  intro entries
  induction entries with
  | nil => intro dists pq v dv h; exact ⟨dv, h, le_refl dv⟩
  | cons a restN ih =>
    intro dists pq v dv h
    by_cases ha : a.node ∈ visited
    · rw [relaxAll_vis visited current dist restN dists pq ha]
      exact ih dists pq v dv h
    · cases hget : mapGet dists a.node with
      | none =>
        rw [relaxAll_none visited current dist restN dists pq ha hget]
        exact ih dists pq v dv h
      | some dv0 =>
        by_cases hlt : ((dist + a.weight : Nat) : NatInf) < dv0
        · rw [relaxAll_update visited current dist restN dists pq ha hget hlt]
          by_cases hv : v = a.node
          · subst hv
            have hd0 : dv = dv0 := Option.some.inj (h.symm.trans hget)
            rcases ih (mapSet dists a.node ((dist + a.weight : Nat) : NatInf))
                (pq ++ [(a.node, dist + a.weight)]) a.node
                ((dist + a.weight : Nat) : NatInf)
                (mapGet_mapSet_self dists a.node _) with ⟨dv', hdv', hle'⟩
            exact ⟨dv', hdv', le_of_lt (lt_of_le_of_lt hle' (hd0 ▸ hlt))⟩
          · rcases ih (mapSet dists a.node ((dist + a.weight : Nat) : NatInf))
                (pq ++ [(a.node, dist + a.weight)]) v dv
                (by rw [mapGet_mapSet_ne dists a.node v _ hv]; exact h) with
              ⟨dv', hdv', hle'⟩
            exact ⟨dv', hdv', hle'⟩
        · rw [relaxAll_noimp visited current dist restN dists pq ha hget hlt]
          exact ih dists pq v dv h

/-! ### Invariant preservation through `relaxAll` -/

/-- Recorded distances remain achievable by a walk: the settled node's
distance is a walk weight, so every relaxation through it is too. -/
theorem relaxAll_achieve (adj : AdjList) (start : NodeId) (visited : List NodeId)
    (current : NodeId) (dist : Nat) (hcur : PathWeight adj start current dist) :
    ∀ entries, (∀ a ∈ entries, a ∈ adjOf adj current) →
    ∀ dists pq,
      (∀ v (w : Nat), mapGet dists v = some ((w : Nat) : NatInf) →
        PathWeight adj start v w) →
      ∀ v (w : Nat),
        mapGet (relaxAll visited current dist entries dists pq).1 v =
          some ((w : Nat) : NatInf) →
        PathWeight adj start v w := by
  intro entries
  induction entries with
  | nil => intro _ dists pq hach v w h; exact hach v w h
  | cons a restN ih =>
    intro hsub dists pq hach v w h
    have hsub' : ∀ a' ∈ restN, a' ∈ adjOf adj current :=
      fun a' ha' => hsub a' (List.mem_cons_of_mem _ ha')
    by_cases ha : a.node ∈ visited
    · rw [relaxAll_vis visited current dist restN dists pq ha] at h
      exact ih hsub' dists pq hach v w h
    · cases hget : mapGet dists a.node with
      | none =>
        rw [relaxAll_none visited current dist restN dists pq ha hget] at h
        exact ih hsub' dists pq hach v w h
      | some dv =>
        by_cases hlt : ((dist + a.weight : Nat) : NatInf) < dv
        · rw [relaxAll_update visited current dist restN dists pq ha hget hlt] at h
          refine ih hsub' _ _ ?_ v w h
          intro v' w' hv'
          by_cases hveq : v' = a.node
          · subst hveq
            rw [mapGet_mapSet_self] at hv'
            have hw' : w' = dist + a.weight := by
              have := Option.some.inj hv'
              exact_mod_cast this.symm
            exact hw' ▸ PathWeight.step hcur (hsub a (List.mem_cons_self _ _))
          · rw [mapGet_mapSet_ne dists a.node v' _ hveq] at hv'
            exact hach v' w' hv'
        · rw [relaxAll_noimp visited current dist restN dists pq ha hget hlt] at h
          exact ih hsub' dists pq hach v w h

/-- After relaxation, every processed unvisited neighbor whose lookup
succeeds carries a distance bounded by the relaxation candidate. -/
theorem relaxAll_relaxes (visited : List NodeId) (current : NodeId) (dist : Nat) :
    ∀ entries dists pq, ∀ a ∈ entries, a.node ∉ visited →
      (∃ dv0, mapGet dists a.node = some dv0) →
      ∃ dv, mapGet (relaxAll visited current dist entries dists pq).1 a.node = some dv ∧
        dv ≤ ((dist + a.weight : Nat) : NatInf) := by
  intro entries
  induction entries with
  | nil => intro dists pq a ha; exact absurd ha (List.not_mem_nil a)
  | cons a' restN ih =>
    intro dists pq a hmem hnv hex
    rcases List.mem_cons.mp hmem with rfl | hmem
    · rcases hex with ⟨dv0, hdv0⟩
      by_cases hlt : ((dist + a.weight : Nat) : NatInf) < dv0
      · rw [relaxAll_update visited current dist restN dists pq hnv hdv0 hlt]
        rcases relaxAll_dists_ge visited current dist restN
            (mapSet dists a.node ((dist + a.weight : Nat) : NatInf))
            (pq ++ [(a.node, dist + a.weight)]) a.node
            ((dist + a.weight : Nat) : NatInf) (mapGet_mapSet_self dists a.node _) with
          ⟨dv', hdv', hle'⟩
        exact ⟨dv', hdv', hle'⟩
      · rw [relaxAll_noimp visited current dist restN dists pq hnv hdv0 hlt]
        rcases relaxAll_dists_ge visited current dist restN dists pq a.node dv0 hdv0 with
          ⟨dv', hdv', hle'⟩
        exact ⟨dv', hdv', le_trans hle' (not_lt.mp hlt)⟩
    · by_cases ha' : a'.node ∈ visited
      · rw [relaxAll_vis visited current dist restN dists pq ha']
        exact ih dists pq a hmem hnv hex
      · cases hget : mapGet dists a'.node with
        | none =>
          rw [relaxAll_none visited current dist restN dists pq ha' hget]
          exact ih dists pq a hmem hnv hex
        | some dv0 =>
          by_cases hlt : ((dist + a'.weight : Nat) : NatInf) < dv0
          · rw [relaxAll_update visited current dist restN dists pq ha' hget hlt]
            refine ih _ _ a hmem hnv ?_
            by_cases hveq : a.node = a'.node
            · exact ⟨_, by rw [hveq]; exact mapGet_mapSet_self dists a'.node _⟩
            · rcases hex with ⟨dv0', hdv0'⟩
              exact ⟨dv0', by rw [mapGet_mapSet_ne dists a'.node a.node _ hveq]; exact hdv0'⟩
          · rw [relaxAll_noimp visited current dist restN dists pq ha' hget hlt]
            exact ih dists pq a hmem hnv hex

/-- Every priority-queue entry after relaxation is an achievable walk
weight. -/
theorem relaxAll_pqAchieve (adj : AdjList) (start : NodeId) (visited : List NodeId)
    (current : NodeId) (dist : Nat) (hcur : PathWeight adj start current dist) :
    ∀ entries, (∀ a ∈ entries, a ∈ adjOf adj current) →
    ∀ dists pq, (∀ p ∈ pq, PathWeight adj start p.1 p.2) →
    ∀ p ∈ (relaxAll visited current dist entries dists pq).2.1,
      PathWeight adj start p.1 p.2 := by
  intro entries
  induction entries with
  | nil => intro _ dists pq hpq p hp; exact hpq p hp
  | cons a restN ih =>
    intro hsub dists pq hpq p hp
    have hsub' : ∀ a' ∈ restN, a' ∈ adjOf adj current :=
      fun a' ha' => hsub a' (List.mem_cons_of_mem _ ha')
    by_cases ha : a.node ∈ visited
    · rw [relaxAll_vis visited current dist restN dists pq ha] at hp
      exact ih hsub' dists pq hpq p hp
    · cases hget : mapGet dists a.node with
      | none =>
        rw [relaxAll_none visited current dist restN dists pq ha hget] at hp
        exact ih hsub' dists pq hpq p hp
      | some dv =>
        by_cases hlt : ((dist + a.weight : Nat) : NatInf) < dv
        · rw [relaxAll_update visited current dist restN dists pq ha hget hlt] at hp
          refine ih hsub' _ _ ?_ p hp
          intro q hq
          rcases List.mem_append.mp hq with hq | hq
          · exact hpq q hq
          · rcases List.mem_singleton.mp hq with rfl
            exact PathWeight.step hcur (hsub a (List.mem_cons_self _ _))
        · rw [relaxAll_noimp visited current dist restN dists pq ha hget hlt] at hp
          exact ih hsub' dists pq hpq p hp

/-- Every unvisited node with a finite recorded distance keeps a
matching priority-queue entry through relaxation. -/
theorem relaxAll_pqEntry (visited : List NodeId) (current : NodeId) (dist : Nat) :
    ∀ entries dists pq,
      (∀ v, v ∉ visited → ∀ w : Nat, mapGet dists v = some ((w : Nat) : NatInf) →
        (v, w) ∈ pq) →
      ∀ v, v ∉ visited → ∀ w : Nat,
        mapGet (relaxAll visited current dist entries dists pq).1 v =
          some ((w : Nat) : NatInf) →
        (v, w) ∈ (relaxAll visited current dist entries dists pq).2.1 := by
  intro entries
  induction entries with
  | nil => intro dists pq hpre v hv w h; exact hpre v hv w h
  | cons a restN ih =>
    intro dists pq hpre v hv w h
    by_cases ha : a.node ∈ visited
    · rw [relaxAll_vis visited current dist restN dists pq ha] at h ⊢
      exact ih dists pq hpre v hv w h
    · cases hget : mapGet dists a.node with
      | none =>
        rw [relaxAll_none visited current dist restN dists pq ha hget] at h ⊢
        exact ih dists pq hpre v hv w h
      | some dv =>
        by_cases hlt : ((dist + a.weight : Nat) : NatInf) < dv
        · rw [relaxAll_update visited current dist restN dists pq ha hget hlt] at h ⊢
          refine ih _ _ ?_ v hv w h
          intro v' hv' w' hw'
          by_cases hveq : v' = a.node
          · subst hveq
            rw [mapGet_mapSet_self] at hw'
            have hweq : w' = dist + a.weight := by
              have := Option.some.inj hw'
              exact_mod_cast this.symm
            subst hweq
            exact List.mem_append_right _ (List.mem_singleton.mpr rfl)
          · rw [mapGet_mapSet_ne dists a.node v' _ hveq] at hw'
            exact List.mem_append_left _ (hpre v' hv' w' hw')
        · rw [relaxAll_noimp visited current dist restN dists pq ha hget hlt] at h ⊢
          exact ih dists pq hpre v hv w h

/-- Every priority-queue entry dominates the recorded distance of its
node, through relaxation. -/
theorem relaxAll_pqDom (visited : List NodeId) (current : NodeId) (dist : Nat) :
    ∀ entries dists pq,
      (∀ p ∈ pq, ∃ dv : NatInf, mapGet dists p.1 = some dv ∧
        dv ≤ ((p.2 : Nat) : NatInf)) →
      ∀ p ∈ (relaxAll visited current dist entries dists pq).2.1,
        ∃ dv : NatInf,
          mapGet (relaxAll visited current dist entries dists pq).1 p.1 = some dv ∧
          dv ≤ ((p.2 : Nat) : NatInf) := by
  intro entries
  induction entries with
  | nil => intro dists pq hpre p hp; exact hpre p hp
  | cons a restN ih =>
    intro dists pq hpre p hp
    by_cases ha : a.node ∈ visited
    · rw [relaxAll_vis visited current dist restN dists pq ha] at hp ⊢
      exact ih dists pq hpre p hp
    · cases hget : mapGet dists a.node with
      | none =>
        rw [relaxAll_none visited current dist restN dists pq ha hget] at hp ⊢
        exact ih dists pq hpre p hp
      | some dv =>
        by_cases hlt : ((dist + a.weight : Nat) : NatInf) < dv
        · rw [relaxAll_update visited current dist restN dists pq ha hget hlt] at hp ⊢
          refine ih _ _ ?_ p hp
          intro q hq
          rcases List.mem_append.mp hq with hq | hq
          · rcases hpre q hq with ⟨dvq, hdvq, hleq⟩
            by_cases hveq : q.1 = a.node
            · refine ⟨((dist + a.weight : Nat) : NatInf), ?_, ?_⟩
              · rw [hveq]
                exact mapGet_mapSet_self _ _ _
              · have h1 : mapGet dists a.node = some dvq := hveq ▸ hdvq
                have hdv : dvq = dv := Option.some.inj (h1.symm.trans hget)
                exact le_trans (le_of_lt hlt) (hdv ▸ hleq)
            · exact ⟨dvq, by rw [mapGet_mapSet_ne dists a.node q.1 _ hveq]; exact hdvq, hleq⟩
          · rcases List.mem_singleton.mp hq with rfl
            exact ⟨((dist + a.weight : Nat) : NatInf), mapGet_mapSet_self _ _ _, le_refl _⟩
        · rw [relaxAll_noimp visited current dist restN dists pq ha hget hlt] at hp ⊢
          exact ih dists pq hpre p hp

/-! ### Unfolding equations for `dijkstraLoop` -/

theorem dijkstraLoop_pqnil (adj : AdjList) (fuel : Nat) (dists : List (NodeId × NatInf))
    (visited : List NodeId) {pq : List (NodeId × Nat)} (hsort : sortPq pq = []) :
    dijkstraLoop adj (fuel + 1) dists visited pq = ([], dists, visited, []) := by
  simp only [dijkstraLoop, hsort]

theorem dijkstraLoop_skip (adj : AdjList) (fuel : Nat) (dists : List (NodeId × NatInf))
    (visited : List NodeId) {pq rest : List (NodeId × Nat)} {current : NodeId} {dist : Nat}
    (hsort : sortPq pq = (current, dist) :: rest) (hc : current ∈ visited) :
    dijkstraLoop adj (fuel + 1) dists visited pq =
      dijkstraLoop adj fuel dists visited rest := by
  simp only [dijkstraLoop, hsort, if_pos hc]

theorem dijkstraLoop_visit (adj : AdjList) (fuel : Nat) (dists : List (NodeId × NatInf))
    (visited : List NodeId) {pq rest : List (NodeId × Nat)} {current : NodeId} {dist : Nat}
    (hsort : sortPq pq = (current, dist) :: rest) (hc : current ∉ visited) :
    dijkstraLoop adj (fuel + 1) dists visited pq =
      (Event.visit current (some dist) none ::
        ((relaxAll (current :: visited) current dist (adjOf adj current) dists rest).2.2 ++
          (dijkstraLoop adj fuel
            (relaxAll (current :: visited) current dist (adjOf adj current) dists rest).1
            (current :: visited)
            (relaxAll (current :: visited) current dist
              (adjOf adj current) dists rest).2.1).1),
        (dijkstraLoop adj fuel
          (relaxAll (current :: visited) current dist (adjOf adj current) dists rest).1
          (current :: visited)
          (relaxAll (current :: visited) current dist
            (adjOf adj current) dists rest).2.1).2) := by
  simp only [dijkstraLoop, hsort, if_neg hc]

/-! ### Fuel adequacy, visit order, and absorption for `dijkstraLoop` -/

theorem dijkstraLoop_pq_nil (adj : AdjList) :
    ∀ fuel dists visited pq, pq.length + adjPotential adj visited ≤ fuel →
      (dijkstraLoop adj fuel dists visited pq).2.2.2 = [] := by
  intro fuel
  induction fuel with
  | zero =>
    intro dists visited pq h
    have hq : pq = [] := by
      cases pq with
      | nil => rfl
      | cons a l => simp at h
    subst hq
    rfl
  | succ fuel ih =>
    intro dists visited pq h
    cases hsort : sortPq pq with
    | nil => rw [dijkstraLoop_pqnil adj fuel dists visited hsort]
    | cons hd rest =>
      obtain ⟨current, dist⟩ := hd
      have hlen : pq.length = rest.length + 1 := by
        have := sortPq_length pq
        rw [hsort] at this
        simp only [List.length_cons] at this
        omega
      by_cases hc : current ∈ visited
      · rw [dijkstraLoop_skip adj fuel dists visited hsort hc]
        apply ih
        omega
      · rw [dijkstraLoop_visit adj fuel dists visited hsort hc]
        apply ih
        have h1 : (relaxAll (current :: visited) current dist
            (adjOf adj current) dists rest).2.1.length ≤
            rest.length + (adjOf adj current).length :=
          relaxAll_pq_length _ _ _ _ _ _
        have h2 : adjPotential adj (current :: visited) + (adjOf adj current).length ≤
            adjPotential adj visited := adjPotential_visit adj visited hc
        omega

theorem dijkstraLoop_visited_eq (adj : AdjList) :
    ∀ fuel dists visited pq,
      (dijkstraLoop adj fuel dists visited pq).2.2.1 =
        (visitNodes (dijkstraLoop adj fuel dists visited pq).1).reverse ++ visited := by
  intro fuel
  induction fuel with
  | zero => intro dists visited pq; rfl
  | succ fuel ih =>
    intro dists visited pq
    cases hsort : sortPq pq with
    | nil => rw [dijkstraLoop_pqnil adj fuel dists visited hsort]; rfl
    | cons hd rest =>
      obtain ⟨current, dist⟩ := hd
      by_cases hc : current ∈ visited
      · rw [dijkstraLoop_skip adj fuel dists visited hsort hc]
        exact ih dists visited rest
      · rw [dijkstraLoop_visit adj fuel dists visited hsort hc, visitNodes_cons_visit,
          visitNodes_append, relaxAll_visitNodes, List.nil_append, List.reverse_cons,
          List.append_assoc]
        exact ih _ (current :: visited) _

theorem dijkstraLoop_visits_nodup (adj : AdjList) :
    ∀ fuel dists visited pq,
      (∀ v ∈ visitNodes (dijkstraLoop adj fuel dists visited pq).1, v ∉ visited) ∧
      (visitNodes (dijkstraLoop adj fuel dists visited pq).1).Nodup := by
  intro fuel
  induction fuel with
  | zero =>
    intro dists visited pq
    exact ⟨fun v hv => absurd hv (List.not_mem_nil v), List.nodup_nil⟩
  | succ fuel ih =>
    intro dists visited pq
    cases hsort : sortPq pq with
    | nil =>
      rw [dijkstraLoop_pqnil adj fuel dists visited hsort]
      exact ⟨fun v hv => absurd hv (List.not_mem_nil v), List.nodup_nil⟩
    | cons hd rest =>
      obtain ⟨current, dist⟩ := hd
      by_cases hc : current ∈ visited
      · rw [dijkstraLoop_skip adj fuel dists visited hsort hc]
        exact ih dists visited rest
      · rw [dijkstraLoop_visit adj fuel dists visited hsort hc, visitNodes_cons_visit,
          visitNodes_append, relaxAll_visitNodes, List.nil_append]
        have hrec := ih (relaxAll (current :: visited) current dist
            (adjOf adj current) dists rest).1 (current :: visited)
          (relaxAll (current :: visited) current dist (adjOf adj current) dists rest).2.1
        constructor
        · intro v hv
          rcases List.mem_cons.mp hv with rfl | hv
          · exact hc
          · exact fun hmem => hrec.1 v hv (List.mem_cons_of_mem _ hmem)
        · rw [List.nodup_cons]
          exact ⟨fun hmem => hrec.1 current hmem (List.mem_cons_self _ _), hrec.2⟩

theorem dijkstraLoop_absorb (adj : AdjList) :
    ∀ fuel dists visited pq, ∀ x,
      (x ∈ visited ∨ ∃ d, (x, d) ∈ pq) →
      x ∈ (dijkstraLoop adj fuel dists visited pq).2.2.1 ∨
        ∃ d, (x, d) ∈ (dijkstraLoop adj fuel dists visited pq).2.2.2 := by
  intro fuel
  induction fuel with
  | zero => intro dists visited pq x hx; exact hx
  | succ fuel ih =>
    intro dists visited pq x hx
    cases hsort : sortPq pq with
    | nil =>
      rw [dijkstraLoop_pqnil adj fuel dists visited hsort]
      rcases hx with hx | ⟨d, hd⟩
      · exact Or.inl hx
      · exfalso
        have : (x, d) ∈ sortPq pq := sortPq_mem.mpr hd
        rw [hsort] at this
        exact List.not_mem_nil _ this
    | cons hd0 rest =>
      obtain ⟨current, dist⟩ := hd0
      have hentry : ∀ d, (x, d) ∈ pq → (x = current ∧ d = dist) ∨ (x, d) ∈ rest := by
        intro d hd
        have : (x, d) ∈ (current, dist) :: rest := hsort ▸ sortPq_mem.mpr hd
        rcases List.mem_cons.mp this with heq | hmem
        · exact Or.inl ⟨congrArg Prod.fst heq, congrArg Prod.snd heq⟩
        · exact Or.inr hmem
      by_cases hc : current ∈ visited
      · rw [dijkstraLoop_skip adj fuel dists visited hsort hc]
        apply ih
        rcases hx with hx | ⟨d, hd⟩
        · exact Or.inl hx
        · rcases hentry d hd with ⟨rfl, rfl⟩ | hmem
          · exact Or.inl hc
          · exact Or.inr ⟨d, hmem⟩
      · rw [dijkstraLoop_visit adj fuel dists visited hsort hc]
        apply ih
        rcases hx with hx | ⟨d, hd⟩
        · exact Or.inl (List.mem_cons_of_mem _ hx)
        · rcases hentry d hd with ⟨rfl, rfl⟩ | hmem
          · exact Or.inl (List.mem_cons_self _ _)
          · exact Or.inr ⟨d, relaxAll_pq_mono _ _ _ _ _ _ _ hmem⟩

/-! ### The settle equality and the greedy minimality argument -/

/-- When an unvisited node is popped, the popped tentative distance
equals its recorded distance. -/
theorem dijk_settle_eq {adj : AdjList} {start : NodeId} {dists : List (NodeId × NatInf)}
    {visited : List NodeId} {pq rest : List (NodeId × Nat)} {current : NodeId} {dist : Nat}
    (inv : DijkInv adj start dists visited pq)
    (hsort : sortPq pq = (current, dist) :: rest) (hc : current ∉ visited) :
    mapGet dists current = some ((dist : Nat) : NatInf) := by
  have hmem : (current, dist) ∈ pq := by
    have : (current, dist) ∈ sortPq pq := hsort ▸ List.mem_cons_self _ _
    exact sortPq_mem.mp this
  rcases inv.pqDom _ hmem with ⟨dv, hdv, hle⟩
  rcases WithTop.le_coe_iff.mp hle with ⟨w, rfl, hw⟩
  have hentry := inv.pqEntry current hc w hdv
  have hmin : dist ≤ w := sortPq_head_min hsort _ hentry
  have hwd : w = dist := by
    have hw' : w ≤ dist := by
      simpa using hw
    exact Nat.le_antisymm hw' hmin
  rw [hdv, hwd]
  norm_cast

/-- The popped minimal tentative distance is a lower bound on the
weight of every walk ending outside the visited set. -/
theorem dijk_pop_min {adj : AdjList} {start : NodeId} {dists : List (NodeId × NatInf)}
    {visited : List NodeId} {pq rest : List (NodeId × Nat)} {current : NodeId} {dist : Nat}
    (inv : DijkInv adj start dists visited pq)
    (hsort : sortPq pq = (current, dist) :: rest) :
    ∀ v (w' : Nat), v ∉ visited → PathWeight adj start v w' → dist ≤ w' := by
  intro v w' hv hpath
  induction hpath with
  | refl =>
    have hentry := inv.pqEntry start hv 0 inv.startZero
    exact sortPq_head_min hsort _ hentry
  | step hpw hadj ih =>
    rename_i u w a
    by_cases hu : u ∈ visited
    · rcases inv.settled u hu with ⟨wu, hwu, hminu⟩
      rcases inv.relaxed u hu a hadj with ⟨du, dvv, hdu, hdvv, hledvv⟩
      have hduwu : du = wu := by
        have := Option.some.inj (hdu.symm.trans hwu)
        exact_mod_cast this
      rcases WithTop.le_coe_iff.mp hledvv with ⟨wv, rfl, hwv⟩
      have hentry := inv.pqEntry a.node hv wv hdvv
      have hd : dist ≤ wv := sortPq_head_min hsort _ hentry
      have hwu_le : wu ≤ w := hminu w hpw
      rw [hduwu] at hwv
      simp only [Nat.cast_id] at hwv
      omega
    · exact Nat.le_trans (ih hu) (Nat.le_add_right w a.weight)

/-- Discarding an already-settled entry preserves the invariant. -/
theorem dijkInv_skip {adj : AdjList} {start : NodeId} {dists : List (NodeId × NatInf)}
    {visited : List NodeId} {pq rest : List (NodeId × Nat)} {current : NodeId} {dist : Nat}
    (inv : DijkInv adj start dists visited pq)
    (hsort : sortPq pq = (current, dist) :: rest) (hc : current ∈ visited) :
    DijkInv adj start dists visited rest := by
  have hsub : ∀ p ∈ rest, p ∈ pq := fun p hp =>
    sortPq_mem.mp (hsort ▸ List.mem_cons_of_mem _ hp)
  refine ⟨inv.achieve, inv.settled, inv.relaxed,
    fun p hp => inv.pqAchieve p (hsub p hp), ?_,
    fun p hp => inv.pqDom p (hsub p hp), inv.startZero, inv.domain⟩
  intro v hv w hw
  have hmem : (v, w) ∈ (current, dist) :: rest :=
    hsort ▸ sortPq_mem.mpr (inv.pqEntry v hv w hw)
  rcases List.mem_cons.mp hmem with heq | hmem
  · have hvc : v = current := congrArg Prod.fst heq
    exact absurd (hvc ▸ hc) hv
  · exact hmem

/-- The master induction for the `dijkstra` settle loop: the invariant
is preserved to the end, and every emitted `visit` event carries the
exact least walk weight of its node. -/
theorem dijkstraLoop_master (adj : AdjList) (start : NodeId) :
    ∀ fuel dists visited pq, DijkInv adj start dists visited pq →
      DijkInv adj start (dijkstraLoop adj fuel dists visited pq).2.1
          (dijkstraLoop adj fuel dists visited pq).2.2.1
          (dijkstraLoop adj fuel dists visited pq).2.2.2 ∧
      ∀ v d, Event.visit v (some d) none ∈ (dijkstraLoop adj fuel dists visited pq).1 →
        PathWeight adj start v d ∧ ∀ w', PathWeight adj start v w' → d ≤ w' := by
  intro fuel
  induction fuel with
  | zero =>
    intro dists visited pq inv
    exact ⟨inv, fun v d h => absurd h (List.not_mem_nil _)⟩
  | succ fuel ih =>
    intro dists visited pq inv
    cases hsort : sortPq pq with
    | nil =>
      rw [dijkstraLoop_pqnil adj fuel dists visited hsort]
      have hpq : pq = [] := by
        have hperm := sortPq_perm pq
        rw [hsort] at hperm
        exact List.perm_nil.mp hperm.symm
      subst hpq
      exact ⟨inv, fun v d h => absurd h (List.not_mem_nil _)⟩
    | cons hd0 rest =>
      obtain ⟨current, dist⟩ := hd0
      by_cases hc : current ∈ visited
      · rw [dijkstraLoop_skip adj fuel dists visited hsort hc]
        exact ih dists visited rest (dijkInv_skip inv hsort hc)
      · rw [dijkstraLoop_visit adj fuel dists visited hsort hc]
        have hsettle : mapGet dists current = some ((dist : Nat) : NatInf) :=
          dijk_settle_eq inv hsort hc
        have hmin : ∀ w', PathWeight adj start current w' → dist ≤ w' :=
          fun w' hw' => dijk_pop_min inv hsort current w' hc hw'
        have hcpw : PathWeight adj start current dist := by
          have hmem : (current, dist) ∈ pq :=
            sortPq_mem.mp (hsort ▸ List.mem_cons_self _ _)
          exact inv.pqAchieve _ hmem
        have hsubrest : ∀ p ∈ rest, p ∈ pq := fun p hp =>
          sortPq_mem.mp (hsort ▸ List.mem_cons_of_mem _ hp)
        have hdomget : ∀ a ∈ adjOf adj current, ∃ dv0, mapGet dists a.node = some dv0 := by
          intro a ha
          cases hga : mapGet adj current with
          | none =>
            rw [adjOf, hga] at ha
            exact absurd ha (List.not_mem_nil a)
          | some l =>
            have hal : a ∈ l := by
              rw [adjOf, hga] at ha
              exact ha
            exact inv.domain (current, l) (mapGet_mem hga) a hal
        have hducur : mapGet (relaxAll (current :: visited) current dist
            (adjOf adj current) dists rest).1 current = some ((dist : Nat) : NatInf) := by
          rw [relaxAll_dists_visited (current :: visited) current dist
            (adjOf adj current) dists rest current (List.mem_cons_self _ _)]
          exact hsettle
        have hinv' : DijkInv adj start
            (relaxAll (current :: visited) current dist (adjOf adj current) dists rest).1
            (current :: visited)
            (relaxAll (current :: visited) current dist
              (adjOf adj current) dists rest).2.1 := by
          constructor
          · exact relaxAll_achieve adj start (current :: visited) current dist hcpw
              (adjOf adj current) (fun a ha => ha) dists rest inv.achieve
          · intro v hv
            rcases List.mem_cons.mp hv with rfl | hv
            · exact ⟨dist, hducur, hmin⟩
            · rcases inv.settled v hv with ⟨wv, hwv, hminv⟩
              refine ⟨wv, ?_, hminv⟩
              rw [relaxAll_dists_visited (current :: visited) current dist
                (adjOf adj current) dists rest v (List.mem_cons_of_mem _ hv)]
              exact hwv
          · intro u hu a ha
            rcases List.mem_cons.mp hu with heq | hu
            · subst heq
              refine ⟨dist, ?_⟩
              by_cases hav : a.node ∈ u :: visited
              · rcases List.mem_cons.mp hav with haeq | hav
                · refine ⟨((dist : Nat) : NatInf), hducur, ?_, ?_⟩
                  · rw [haeq]
                    exact hducur
                  · exact_mod_cast Nat.le_add_right dist a.weight
                · rcases inv.settled a.node hav with ⟨wv, hwv, hminv⟩
                  have hwv' : mapGet (relaxAll (u :: visited) u dist
                      (adjOf adj u) dists rest).1 a.node = some ((wv : Nat) : NatInf) := by
                    rw [relaxAll_dists_visited (u :: visited) u dist
                      (adjOf adj u) dists rest a.node (List.mem_cons_of_mem _ hav)]
                    exact hwv
                  refine ⟨((wv : Nat) : NatInf), hducur, hwv', ?_⟩
                  have hstep : PathWeight adj start a.node (dist + a.weight) :=
                    PathWeight.step hcpw ha
                  exact_mod_cast hminv _ hstep
              · rcases relaxAll_relaxes (u :: visited) u dist (adjOf adj u) dists rest
                    a ha hav (hdomget a ha) with ⟨dv, hdv, hledv⟩
                exact ⟨dv, hducur, hdv, hledv⟩
            · rcases inv.relaxed u hu a ha with ⟨du, dvv, hdu, hdvv, hle⟩
              have hdu' : mapGet (relaxAll (current :: visited) current dist
                  (adjOf adj current) dists rest).1 u = some ((du : Nat) : NatInf) := by
                rw [relaxAll_dists_visited (current :: visited) current dist
                  (adjOf adj current) dists rest u (List.mem_cons_of_mem _ hu)]
                exact hdu
              rcases relaxAll_dists_ge (current :: visited) current dist
                  (adjOf adj current) dists rest a.node dvv hdvv with ⟨dvv', hdvv', hlev⟩
              exact ⟨du, dvv', hdu', hdvv', le_trans hlev hle⟩
          · exact relaxAll_pqAchieve adj start (current :: visited) current dist hcpw
              (adjOf adj current) (fun a ha => ha) dists rest
              (fun p hp => inv.pqAchieve p (hsubrest p hp))
          · refine relaxAll_pqEntry (current :: visited) current dist
              (adjOf adj current) dists rest ?_
            intro v hv w hw
            have hvv : v ∉ visited := fun hmem => hv (List.mem_cons_of_mem _ hmem)
            have hvc : v ≠ current := fun heq => hv (heq ▸ List.mem_cons_self _ _)
            have hmem2 : (v, w) ∈ (current, dist) :: rest :=
              hsort ▸ sortPq_mem.mpr (inv.pqEntry v hvv w hw)
            rcases List.mem_cons.mp hmem2 with heq | hmem2
            · exact absurd (congrArg Prod.fst heq) hvc
            · exact hmem2
          · exact relaxAll_pqDom (current :: visited) current dist
              (adjOf adj current) dists rest
              (fun p hp => inv.pqDom p (hsubrest p hp))
          · rcases relaxAll_dists_ge (current :: visited) current dist
                (adjOf adj current) dists rest start _ inv.startZero with ⟨dv', hdv', hle'⟩
            rcases WithTop.le_coe_iff.mp hle' with ⟨w0, rfl, hw0⟩
            have hw00 : w0 = 0 := by simpa using hw0
            rw [hdv', hw00]
            norm_cast
          · intro p hp a ha
            rcases inv.domain p hp a ha with ⟨dv0, hdv0⟩
            rcases relaxAll_dists_ge (current :: visited) current dist
                (adjOf adj current) dists rest a.node dv0 hdv0 with ⟨dv', hdv', _⟩
            exact ⟨dv', hdv'⟩
        have hrec := ih _ (current :: visited) _ hinv'
        refine ⟨hrec.1, ?_⟩
        intro v d hv
        rcases List.mem_cons.mp hv with heq | hv
        · have h1 : v = current := by
            injection heq
          have h2 : d = dist := by
            injection heq with ha1 ha2
            exact Option.some.inj ha2
          subst h1
          subst h2
          exact ⟨hcpw, hmin⟩
        · rcases List.mem_append.mp hv with hv | hv
          · rcases relaxAll_events_enqueue _ _ _ _ _ _ _ hv with ⟨n, dd, ee, heq⟩
            exact absurd heq (fun hcon => Event.noConfusion hcon)
          · exact hrec.2 v d hv

/-! ### The initial state of `dijkstra` satisfies the invariant -/

theorem mapGet_initFold (ids : List NodeId) :
    ∀ (m : List (NodeId × NatInf)) (v : NodeId),
      mapGet (ids.foldl (fun m i => mapSet m i (⊤ : NatInf)) m) v =
        if v ∈ ids then some ⊤ else mapGet m v := by
  induction ids with
  | nil => intro m v; simp
  | cons i rest ih =>
    intro m v
    rw [List.foldl_cons, ih]
    by_cases hv : v ∈ rest
    · rw [if_pos hv, if_pos (List.mem_cons_of_mem _ hv)]
    · rw [if_neg hv]
      by_cases hvi : v = i
      · rw [if_pos (by rw [hvi]; exact List.mem_cons_self _ _), hvi, mapGet_mapSet_self]
      · rw [if_neg (by simp [hvi, hv]), mapGet_mapSet_ne m i v _ hvi]

theorem dijkstraInitDists_get (ids : List NodeId) (start v : NodeId) :
    mapGet (dijkstraInitDists ids start) v =
      if v = start then some ((0 : Nat) : NatInf)
      else if v ∈ ids then some ⊤ else none := by
  rw [dijkstraInitDists]
  by_cases hv : v = start
  · rw [if_pos hv, hv, mapGet_mapSet_self]
    norm_cast
  · rw [if_neg hv, mapGet_mapSet_ne _ _ _ _ hv, mapGet_initFold]
    by_cases hvi : v ∈ ids
    · rw [if_pos hvi, if_pos hvi]
    · rw [if_neg hvi, if_neg hvi]
      rfl

theorem dijkInv_init (adj : AdjList) (ids : List NodeId) (start : NodeId)
    (hcov : AdjCovered ids adj) :
    DijkInv adj start (dijkstraInitDists ids start) [] [(start, 0)] := by
  have hget : ∀ v (w : Nat),
      mapGet (dijkstraInitDists ids start) v = some ((w : Nat) : NatInf) →
      v = start ∧ w = 0 := by
    intro v w h
    rw [dijkstraInitDists_get] at h
    by_cases hv : v = start
    · rw [if_pos hv] at h
      refine ⟨hv, ?_⟩
      have := Option.some.inj h
      exact_mod_cast this.symm
    · rw [if_neg hv] at h
      by_cases hvi : v ∈ ids
      · rw [if_pos hvi] at h
        exact absurd (Option.some.inj h).symm (by simp)
      · rw [if_neg hvi] at h
        exact absurd h (fun hc => Option.noConfusion hc)
  constructor
  · intro v w h
    rcases hget v w h with ⟨rfl, rfl⟩
    exact PathWeight.refl
  · intro v hv
    exact absurd hv (List.not_mem_nil v)
  · intro u hu
    exact absurd hu (List.not_mem_nil u)
  · intro p hp
    rcases List.mem_singleton.mp hp with rfl
    exact PathWeight.refl
  · intro v hv w h
    rcases hget v w h with ⟨rfl, rfl⟩
    exact List.mem_singleton.mpr rfl
  · intro p hp
    rcases List.mem_singleton.mp hp with rfl
    refine ⟨((0 : Nat) : NatInf), ?_, le_refl _⟩
    rw [dijkstraInitDists_get, if_pos rfl]
  · rw [dijkstraInitDists_get, if_pos rfl]
  · intro p hp a ha
    have hmem : a.node ∈ ids := hcov p hp a ha
    rw [dijkstraInitDists_get]
    by_cases h1 : a.node = start
    · rw [if_pos h1]
      exact ⟨_, rfl⟩
    · rw [if_neg h1, if_pos hmem]
      exact ⟨_, rfl⟩

/-! ### Reachability bridges -/

theorem pathWeight_reaches {adj : AdjList} {start v : NodeId} {w : Nat}
    (h : PathWeight adj start v w) : Reaches adj start v := by
  induction h with
  | refl => exact ⟨0, ReachesIn.refl⟩
  | step hp ha ih =>
    rcases ih with ⟨k, hk⟩
    exact ⟨k + 1, ReachesIn.step hk ha⟩

/-- The per-algorithm reachability characterization for `bfs`. -/
theorem bfs_reach_equiv (adj : AdjList) (start : NodeId) :
    ∀ v, v ∈ visitNodes (bfsEvents adj start) ↔ Reaches adj start v := by
  have hfin : (bfsLoop adj (1 + adjPotential adj []) [] [start]).2.2 = [] := by
    apply bfsLoop_queue_nil
    simp
  have hveq := bfsLoop_visited_eq adj (1 + adjPotential adj []) [] [start]
  have hmemiff : ∀ v, v ∈ (bfsLoop adj (1 + adjPotential adj []) [] [start]).2.1 ↔
      v ∈ visitNodes (bfsEvents adj start) := by
    intro v
    rw [hveq, bfsEvents, List.append_nil, List.mem_reverse]
  intro v
  constructor
  · intro hv
    refine bfsLoop_reach_sound adj start (1 + adjPotential adj []) [] [start]
      (fun x hx => absurd hx (List.not_mem_nil x)) ?_ v ((hmemiff v).mpr hv)
    intro q hq
    rcases List.mem_singleton.mp hq with rfl
    exact ⟨0, ReachesIn.refl⟩
  · rintro ⟨k, hk⟩
    rw [← hmemiff]
    have hstart : start ∈ (bfsLoop adj (1 + adjPotential adj []) [] [start]).2.1 := by
      rcases bfsLoop_absorb adj (1 + adjPotential adj []) [] [start] start
          (Or.inr (List.mem_singleton.mpr rfl)) with h | h
      · exact h
      · rw [hfin] at h
        exact absurd h (List.not_mem_nil start)
    have hclosed := bfsLoop_closed adj (1 + adjPotential adj []) [] [start]
      (fun u hu => absurd hu (List.not_mem_nil u))
    clear hveq hmemiff
    induction hk with
    | refl => exact hstart
    | step hp ha ih =>
      rcases hclosed _ ih _ ha with h | h
      · exact h
      · rw [hfin] at h
        exact absurd h (List.not_mem_nil _)

/-- The per-algorithm reachability characterization for `dfs`. -/
theorem dfs_reach_equiv (adj : AdjList) (start : NodeId) :
    ∀ v, v ∈ visitNodes (dfsEvents adj start) ↔ Reaches adj start v := by
  have hfin : (dfsLoop adj (1 + adjPotential adj []) [] [start]).2.2 = [] := by
    apply dfsLoop_stack_nil
    simp
  have hveq := dfsLoop_visited_eq adj (1 + adjPotential adj []) [] [start]
  have hmemiff : ∀ v, v ∈ (dfsLoop adj (1 + adjPotential adj []) [] [start]).2.1 ↔
      v ∈ visitNodes (dfsEvents adj start) := by
    intro v
    rw [hveq, dfsEvents, List.append_nil, List.mem_reverse]
  intro v
  constructor
  · intro hv
    refine dfsLoop_reach_sound adj start (1 + adjPotential adj []) [] [start]
      (fun x hx => absurd hx (List.not_mem_nil x)) ?_ v ((hmemiff v).mpr hv)
    intro q hq
    rcases List.mem_singleton.mp hq with rfl
    exact ⟨0, ReachesIn.refl⟩
  · rintro ⟨k, hk⟩
    rw [← hmemiff]
    have hstart : start ∈ (dfsLoop adj (1 + adjPotential adj []) [] [start]).2.1 := by
      rcases dfsLoop_absorb adj (1 + adjPotential adj []) [] [start] start
          (Or.inr (List.mem_singleton.mpr rfl)) with h | h
      · exact h
      · rw [hfin] at h
        exact absurd h (List.not_mem_nil start)
    have hclosed := dfsLoop_closed adj (1 + adjPotential adj []) [] [start]
      (fun u hu => absurd hu (List.not_mem_nil u))
    clear hveq hmemiff
    induction hk with
    | refl => exact hstart
    | step hp ha ih =>
      rcases hclosed _ ih _ ha with h | h
      · exact h
      · rw [hfin] at h
        exact absurd h (List.not_mem_nil _)

/-- The per-algorithm reachability characterization for `dijkstra`. -/
theorem dijkstra_reach_equiv (ids : List NodeId) (adj : AdjList) (start : NodeId)
    (hcov : AdjCovered ids adj) :
    ∀ v, v ∈ visitNodes (dijkstraEvents ids adj start) ↔ Reaches adj start v := by
  have hrun := dijkstraLoop_master adj start (1 + adjPotential adj [])
    (dijkstraInitDists ids start) [] [(start, 0)] (dijkInv_init adj ids start hcov)
  have hfin : (dijkstraLoop adj (1 + adjPotential adj []) (dijkstraInitDists ids start)
      [] [(start, 0)]).2.2.2 = [] := by
    apply dijkstraLoop_pq_nil
    simp
  have hveq := dijkstraLoop_visited_eq adj (1 + adjPotential adj [])
    (dijkstraInitDists ids start) [] [(start, 0)]
  have hmemiff : ∀ v,
      v ∈ (dijkstraLoop adj (1 + adjPotential adj []) (dijkstraInitDists ids start)
        [] [(start, 0)]).2.2.1 ↔
      v ∈ visitNodes (dijkstraEvents ids adj start) := by
    intro v
    rw [hveq, dijkstraEvents, visitNodes_cons_setDistance, List.append_nil,
      List.mem_reverse]
  have finv := hrun.1
  have hclosed : ∀ u ∈ (dijkstraLoop adj (1 + adjPotential adj [])
      (dijkstraInitDists ids start) [] [(start, 0)]).2.2.1, ∀ a ∈ adjOf adj u,
      a.node ∈ (dijkstraLoop adj (1 + adjPotential adj [])
        (dijkstraInitDists ids start) [] [(start, 0)]).2.2.1 := by
    intro u hu a ha
    rcases finv.relaxed u hu a ha with ⟨du, dv, hdu, hdv, hle⟩
    rcases WithTop.le_coe_iff.mp hle with ⟨wv, rfl, hwv⟩
    by_cases hmem : a.node ∈ (dijkstraLoop adj (1 + adjPotential adj [])
        (dijkstraInitDists ids start) [] [(start, 0)]).2.2.1
    · exact hmem
    · exfalso
      have hentry := finv.pqEntry a.node hmem wv hdv
      rw [hfin] at hentry
      exact List.not_mem_nil _ hentry
  have hstart : start ∈ (dijkstraLoop adj (1 + adjPotential adj [])
      (dijkstraInitDists ids start) [] [(start, 0)]).2.2.1 := by
    by_cases hmem : start ∈ (dijkstraLoop adj (1 + adjPotential adj [])
        (dijkstraInitDists ids start) [] [(start, 0)]).2.2.1
    · exact hmem
    · exfalso
      have hentry := finv.pqEntry start hmem 0 finv.startZero
      rw [hfin] at hentry
      exact List.not_mem_nil _ hentry
  intro v
  constructor
  · intro hv
    have hvF := (hmemiff v).mpr hv
    rcases finv.settled v hvF with ⟨w, hw, _⟩
    exact pathWeight_reaches (finv.achieve v w hw)
  · rintro ⟨k, hk⟩
    rw [← hmemiff]
    induction hk with
    | refl => exact hstart
    | step hp ha ih => exact hclosed _ ih _ ha

/-! ## Claims about the traversal engine (C1, C2, C10) -/

/-- C1: for every covered graph and start id, every `visit` event of
the shortest-path run carries a settled distance that is achieved by a
walk from the start over the adjacency projection and is minimal among
all such walk weights (weights are non-negative by the data model,
being naturals). -/
theorem dijkstra_distances_optimal (ids : List NodeId) (adj : AdjList) (start : NodeId)
    (hcov : AdjCovered ids adj) :
    ∀ v d, Event.visit v (some d) none ∈ dijkstraEvents ids adj start →
      PathWeight adj start v d ∧ ∀ w', PathWeight adj start v w' → d ≤ w' := by
  intro v d hv
  rw [dijkstraEvents] at hv
  rcases List.mem_cons.mp hv with heq | hv
  · exact absurd heq (fun h => Event.noConfusion h)
  · exact (dijkstraLoop_master adj start (1 + adjPotential adj [])
      (dijkstraInitDists ids start) [] [(start, 0)]
      (dijkInv_init adj ids start hcov)).2 v d hv

/-- C1, witness: the scenario graph. -/
theorem dijkstra_distances_optimal_witness :
    PathWeight sampleState.adjacencyList 0 2 2 ∧
      ∀ w', PathWeight sampleState.adjacencyList 0 2 w' → 2 ≤ w' :=
  dijkstra_distances_optimal (nodeIds sampleState) sampleState.adjacencyList 0 (by decide)
    2 2 (by decide)

/-- C2: for each of the three algorithms, the set of node ids receiving
a `visit` event equals exactly the set of nodes reachable from the
start over the adjacency projection (which encodes the direction
mode); disconnected nodes are never visited. -/
theorem visit_set_eq_reachable (ids : List NodeId) (adj : AdjList) (start : NodeId)
    (hcov : AdjCovered ids adj) :
    (∀ v, v ∈ visitNodes (bfsEvents adj start) ↔ Reaches adj start v) ∧
    (∀ v, v ∈ visitNodes (dfsEvents adj start) ↔ Reaches adj start v) ∧
    (∀ v, v ∈ visitNodes (dijkstraEvents ids adj start) ↔ Reaches adj start v) :=
  ⟨bfs_reach_equiv adj start, dfs_reach_equiv adj start,
    dijkstra_reach_equiv ids adj start hcov⟩

/-- C2, witness: the scenario graph. -/
theorem visit_set_eq_reachable_witness :
    (∀ v, v ∈ visitNodes (bfsEvents sampleState.adjacencyList 0) ↔
      Reaches sampleState.adjacencyList 0 v) ∧
    (∀ v, v ∈ visitNodes (dfsEvents sampleState.adjacencyList 0) ↔
      Reaches sampleState.adjacencyList 0 v) ∧
    (∀ v, v ∈ visitNodes (dijkstraEvents (nodeIds sampleState)
        sampleState.adjacencyList 0) ↔ Reaches sampleState.adjacencyList 0 v) :=
  visit_set_eq_reachable (nodeIds sampleState) sampleState.adjacencyList 0 (by decide)

/-- C10: each of the three algorithms emits at most one `visit` event
per node id. -/
theorem visit_events_nodup (ids : List NodeId) (adj : AdjList) (start : NodeId) :
    (visitNodes (bfsEvents adj start)).Nodup ∧
    (visitNodes (dfsEvents adj start)).Nodup ∧
    (visitNodes (dijkstraEvents ids adj start)).Nodup := by
  refine ⟨(bfsLoop_visits_nodup adj (1 + adjPotential adj []) [] [start]).2,
    (dfsLoop_visits_nodup adj (1 + adjPotential adj []) [] [start]).2, ?_⟩
  rw [dijkstraEvents, visitNodes_cons_setDistance]
  exact (dijkstraLoop_visits_nodup adj (1 + adjPotential adj [])
    (dijkstraInitDists ids start) [] [(start, 0)]).2

/-! ### The BFS level argument: visit order sorted by hop distance -/

theorem reachesIn_zero {adj : AdjList} {s v : NodeId} (h : ReachesIn adj s v 0) :
    v = s := by
  cases h
  rfl

theorem reachesIn_succ {adj : AdjList} {s v : NodeId} {k : Nat}
    (h : ReachesIn adj s v (k + 1)) :
    ∃ u, ∃ a : AdjEntry, ReachesIn adj s u k ∧ a ∈ adjOf adj u ∧ a.node = v := by
  cases h with
  | step hp ha => exact ⟨_, _, hp, ha, rfl⟩

theorem bfsLevelInv_init (adj : AdjList) (start : NodeId) :
    BfsLevelInv adj start [] [start] 0 := by
  refine ⟨?_, ⟨[start], [], rfl, ?_, ?_, ?_⟩, ?_⟩
  · rintro w ⟨k, hk, _⟩
    exact absurd hk (Nat.not_lt_zero k)
  · intro q hq
    rcases List.mem_singleton.mp hq with rfl
    exact ⟨0, Nat.le_refl 0, ReachesIn.refl⟩
  · rintro w _ ⟨k, hk, hr⟩
    have hk0 : k = 0 := Nat.le_zero.mp hk
    subst hk0
    rw [reachesIn_zero hr]
    exact List.mem_singleton.mpr rfl
  · intro q hq
    exact absurd hq (List.not_mem_nil q)
  · intro u hu
    exact absurd hu (List.not_mem_nil u)

/-- The level induction: from any state satisfying the level invariant
at `c`, the remaining visit order is non-decreasing in hop distance and
visits only nodes at hop distance at least `c`. -/
theorem bfsLoop_sorted_aux (adj : AdjList) (start : NodeId) :
    ∀ fuel visited queue c, BfsLevelInv adj start visited queue c →
      (visitNodes (bfsLoop adj fuel visited queue).1).Pairwise (HopDistMono adj start) ∧
      ∀ v ∈ visitNodes (bfsLoop adj fuel visited queue).1, ¬ HopLT adj start v c := by
  intro fuel
  induction fuel with
  | zero =>
    intro visited queue c _
    exact ⟨List.Pairwise.nil, fun v hv => absurd hv (List.not_mem_nil v)⟩
  | succ fuel ih =>
    intro visited queue c inv
    cases queue with
    | nil =>
      rw [bfsLoop_nil]
      exact ⟨List.Pairwise.nil, fun v hv => absurd hv (List.not_mem_nil v)⟩
    | cons current rest =>
      obtain ⟨A, B, hq, hA, hAc, hB⟩ := inv.split
      by_cases hc : current ∈ visited
      · rw [bfsLoop_skip adj fuel visited rest hc]
        apply ih
        have hclosure : ∀ u ∈ visited, ∀ a ∈ adjOf adj u,
            a.node ∈ visited ∨ a.node ∈ rest := by
          intro u hu a ha
          rcases inv.closure u hu a ha with h | h
          · exact Or.inl h
          · rcases List.mem_cons.mp h with he | he
            · exact Or.inl (he ▸ hc)
            · exact Or.inr he
        cases A with
        | nil =>
          rw [List.nil_append] at hq
          refine ⟨inv.below, ⟨[], rest, rfl, ?_, ?_, ?_⟩, hclosure⟩
          · intro q hqm
            exact absurd hqm (List.not_mem_nil q)
          · intro w hwv hwle
            exact absurd (hAc w hwv hwle) (List.not_mem_nil w)
          · intro q hqm
            exact hB q (hq ▸ List.mem_cons_of_mem _ hqm)
        | cons a0 A0 =>
          rw [List.cons_append] at hq
          injection hq with ha0 hrest
          subst ha0
          refine ⟨inv.below, ⟨A0, B, hrest, ?_, ?_, hB⟩, hclosure⟩
          · intro q hqm
            exact hA q (List.mem_cons_of_mem _ hqm)
          · intro w hwv hwle
            rcases List.mem_cons.mp (hAc w hwv hwle) with he | he
            · exact absurd (he ▸ hc) hwv
            · exact he
      · rw [bfsLoop_visit adj fuel visited rest hc, visitNodes_cons_visit,
          visitNodes_append, visitNodes_enqueue_map, List.nil_append]
        have hclosure' : ∀ u ∈ current :: visited, ∀ a ∈ adjOf adj u,
            a.node ∈ current :: visited ∨
              a.node ∈ rest ++ (bfsPush adj visited current).map (fun a => a.node) := by
          intro u hu a ha
          rcases List.mem_cons.mp hu with heq | hu
          · rw [heq] at ha
            by_cases hmem : a.node ∈ current :: visited
            · exact Or.inl hmem
            · refine Or.inr (List.mem_append_right _ ?_)
              exact List.mem_map_of_mem _ (List.mem_filter.mpr ⟨ha, decide_eq_true hmem⟩)
          · rcases inv.closure u hu a ha with h | h
            · exact Or.inl (List.mem_cons_of_mem _ h)
            · rcases List.mem_cons.mp h with he | he
              · exact Or.inl (he ▸ List.mem_cons_self _ _)
              · exact Or.inr (List.mem_append_left _ he)
        cases A with
        | nil =>
          rw [List.nil_append] at hq
          have hcurLE : HopLE adj start current (c + 1) :=
            hB current (hq ▸ List.mem_cons_self _ _)
          have hcurNotLT : ¬ HopLT adj start current (c + 1) := by
            rintro ⟨k, hk, hr⟩
            exact absurd (hAc current hc ⟨k, Nat.lt_succ_iff.mp hk, hr⟩)
              (List.not_mem_nil current)
          have hbelow' : ∀ w, HopLT adj start w (c + 1) → w ∈ current :: visited := by
            rintro w ⟨k, hk, hr⟩
            by_cases hwv : w ∈ visited
            · exact List.mem_cons_of_mem _ hwv
            · exact absurd (hAc w hwv ⟨k, Nat.lt_succ_iff.mp hk, hr⟩)
                (List.not_mem_nil w)
          have inv' : BfsLevelInv adj start (current :: visited)
              (rest ++ (bfsPush adj visited current).map (fun a => a.node)) (c + 1) := by
            refine ⟨hbelow',
              ⟨rest, (bfsPush adj visited current).map (fun a => a.node), rfl,
                ?_, ?_, ?_⟩, hclosure'⟩
            · intro q hqm
              exact hB q (hq ▸ List.mem_cons_of_mem _ hqm)
            · intro w hwv hwle
              rcases hwle with ⟨k, hk, hr⟩
              have hwnv : w ∉ visited := fun hm => hwv (List.mem_cons_of_mem _ hm)
              have hwnc : w ≠ current := fun he => hwv (he ▸ List.mem_cons_self _ _)
              by_cases hkc : k ≤ c
              · exact absurd (hAc w hwnv ⟨k, hkc, hr⟩) (List.not_mem_nil w)
              · have hke : k = c + 1 := by omega
                subst hke
                rcases reachesIn_succ hr with ⟨p, a, hp, ha, rfl⟩
                have hpvis : p ∈ current :: visited :=
                  hbelow' p ⟨c, Nat.lt_succ_self c, hp⟩
                rcases List.mem_cons.mp hpvis with hpc | hpv
                · exfalso
                  exact absurd (hAc current hc ⟨c, Nat.le_refl c, hpc ▸ hp⟩)
                    (List.not_mem_nil current)
                · rcases inv.closure p hpv a ha with h | h
                  · exact absurd h hwnv
                  · rcases List.mem_cons.mp h with he | he
                    · exact absurd he hwnc
                    · exact he
            · intro q hqm
              rcases List.mem_map.mp hqm with ⟨a, ham, rfl⟩
              rcases hcurLE with ⟨k, hk, hr⟩
              exact ⟨k + 1, by omega, ReachesIn.step hr (List.mem_filter.mp ham).1⟩
          have hrec := ih (current :: visited)
            (rest ++ (bfsPush adj visited current).map (fun a => a.node)) (c + 1) inv'
          constructor
          · rw [List.pairwise_cons]
            refine ⟨?_, hrec.1⟩
            intro v' hv' k hrk
            have hk1 : c + 1 ≤ k := by
              by_contra hlt
              exact hrec.2 v' hv' ⟨k, by omega, hrk⟩
            rcases hcurLE with ⟨j, hj, hrj⟩
            exact ⟨j, by omega, hrj⟩
          · intro v hv
            rcases List.mem_cons.mp hv with rfl | hv
            · rintro ⟨k, hk, hr⟩
              exact hcurNotLT ⟨k, by omega, hr⟩
            · rintro ⟨k, hk, hr⟩
              exact hrec.2 v hv ⟨k, by omega, hr⟩
        | cons a0 A0 =>
          rw [List.cons_append] at hq
          injection hq with ha0 hrest
          subst ha0
          have hcurLE : HopLE adj start current c := hA current (List.mem_cons_self _ _)
          have hcurNotLT : ¬ HopLT adj start current c :=
            fun hlt => hc (inv.below current hlt)
          have inv' : BfsLevelInv adj start (current :: visited)
              (rest ++ (bfsPush adj visited current).map (fun a => a.node)) c := by
            refine ⟨fun w hw => List.mem_cons_of_mem _ (inv.below w hw),
              ⟨A0, B ++ (bfsPush adj visited current).map (fun a => a.node),
                by rw [hrest, List.append_assoc], ?_, ?_, ?_⟩, hclosure'⟩
            · intro q hqm
              exact hA q (List.mem_cons_of_mem _ hqm)
            · intro w hwv hwle
              have hwnv : w ∉ visited := fun hm => hwv (List.mem_cons_of_mem _ hm)
              have hwnc : w ≠ current := fun he => hwv (he ▸ List.mem_cons_self _ _)
              rcases List.mem_cons.mp (hAc w hwnv hwle) with he | he
              · exact absurd he hwnc
              · exact he
            · intro q hqm
              rcases List.mem_append.mp hqm with h | h
              · exact hB q h
              · rcases List.mem_map.mp h with ⟨a, ham, rfl⟩
                rcases hcurLE with ⟨k, hk, hr⟩
                exact ⟨k + 1, by omega, ReachesIn.step hr (List.mem_filter.mp ham).1⟩
          have hrec := ih (current :: visited)
            (rest ++ (bfsPush adj visited current).map (fun a => a.node)) c inv'
          constructor
          · rw [List.pairwise_cons]
            refine ⟨?_, hrec.1⟩
            intro v' hv' k hrk
            have hkc : c ≤ k := by
              by_contra hlt
              exact hrec.2 v' hv' ⟨k, by omega, hrk⟩
            rcases hcurLE with ⟨j, hj, hrj⟩
            exact ⟨j, by omega, hrj⟩
          · intro v hv
            rcases List.mem_cons.mp hv with rfl | hv
            · exact hcurNotLT
            · exact hrec.2 v hv

/-- C3: the `visit` events of a BFS run list nodes in an order that is
non-decreasing in hop-count distance from the start node over the
adjacency projection. -/
theorem bfs_visit_order_monotone (adj : AdjList) (start : NodeId) :
    (visitNodes (bfsEvents adj start)).Pairwise (HopDistMono adj start) :=
  (bfsLoop_sorted_aux adj start (1 + adjPotential adj []) [] [start] 0
    (bfsLevelInv_init adj start)).1

end GraphVisualizer
